import Mathlib

/-!
# Verification of the node-shadowsocks AEAD codec and local peer

Shallow embedding of `src/encrypt.ts` (Encryptor / Decryptor stream codec,
EVP_BytesToKey key derivation, nonce counter), of the cipher registry in
`src/config.ts`, and of the SOCKS5 success-reply ordering of the local peer's
`useTcpTunnel` / `useWebSocketTunnel`.

Conventions:
* Node `Buffer`s are `List Nat` with every cell < 256 by construction.
* The external cryptographic primitives (MD5, HKDF-SHA1, and the AEAD
  ciphers AES-GCM / ChaCha20-Poly1305) are parameters, bundled in `Crypto`.
  Both AEAD families are CTR-style stream ciphers with a 16-byte tag computed
  over the ciphertext, so sealing/opening is modelled as XOR with a keystream
  `ks key nonce position` plus a tag function `tagOf key nonce ciphertext`;
  `cipher.update` streams positionally, exactly as the GCM contexts in the
  source do.
* Mutable Transform-stream state becomes explicit state records; `push`
  becomes an output list; `throw` becomes an `err` field carrying the state
  at the moment of the throw (the JS object keeps its mutated fields when an
  exception propagates).
-/

set_option linter.unusedVariables false

namespace NodeSS

/-- `const MAX_PAYLOAD = 0x3fff` (src/encrypt.ts line 7). -/
def MAX_PAYLOAD : Nat := 0x3fff

/-- `increase(nonce)` (src/encrypt.ts lines 46-51): increment a little-endian
byte string with carry; each byte wraps mod 256 and the loop stops at the
first byte that did not wrap. -/
def increase : List Nat → List Nat
  | [] => []
  | b :: rest =>
    if (b + 1) % 256 = 0 then (b + 1) % 256 :: increase rest
    else (b + 1) % 256 :: rest

/-- The 12-byte all-zero initial nonce (`Buffer.alloc(12)`). -/
def zeroNonce : List Nat := List.replicate 12 0

/-- Value of a little-endian byte string as an unsigned integer. -/
def leVal : List Nat → Nat
  | [] => 0
  | b :: rest => b + 256 * leVal rest

/-- External cryptographic primitives used by src/encrypt.ts, kept abstract:
`md5F` is MD5, `hkdfF mainkey keyLen salt` is HKDF-SHA1 with info "ss-subkey",
`ks key nonce i` is the AEAD keystream byte at position `i`, and
`tagOf key nonce ciphertext` is the 16-byte authentication tag. -/
structure Crypto where
  md5F : List Nat → List Nat
  hkdfF : List Nat → Nat → List Nat → List Nat
  ks : List Nat → List Nat → Nat → Nat
  tagOf : List Nat → List Nat → List Nat → List Nat

/-- Stream-cipher encrypt/decrypt: XOR the data with the keystream starting
at position `off`. `cipher.update` on a GCM/ChaCha20 context is exactly this,
with `off` the number of bytes already processed by that context. -/
def sealBytes (C : Crypto) (key nonce : List Nat) : Nat → List Nat → List Nat
  | _, [] => []
  | off, b :: rest =>
      (b ^^^ C.ks key nonce off % 256) :: sealBytes C key nonce (off + 1) rest

/-- The four registry methods (src/config.ts). -/
inductive Method
  | chacha20poly1305
  | aes256gcm
  | aes192gcm
  | aes128gcm
deriving DecidableEq, Repr

/-- One registry entry: `{ keyLen, saltLen }`. -/
structure CipherInfo where
  keyLen : Nat
  saltLen : Nat
deriving DecidableEq, Repr

/-- `cipherInfoMap` (src/config.ts lines 2-7). -/
def cipherInfoMap : Method → CipherInfo
  | .chacha20poly1305 => ⟨32, 32⟩
  | .aes256gcm => ⟨32, 32⟩
  | .aes192gcm => ⟨24, 24⟩
  | .aes128gcm => ⟨16, 16⟩

/-! ## Key derivation (src/encrypt.ts lines 14-43) -/

/-- `src.copy(dst, dstStart)` Buffer semantics: write `src` into `dst` at
offset `dstStart`, silently truncating at the end of `dst`; the length of
`dst` never changes. -/
def bufCopy (dst : List Nat) (dstStart : Nat) (src : List Nat) : List Nat :=
  let n := min src.length (dst.length - dstStart)
  dst.take dstStart ++ src.take n ++ dst.drop (dstStart + n)

/-- `_evpBytesToKey(pwstr, keyLen)` (src/encrypt.ts lines 14-33), the
shadowsocks-go EVP_BytesToKey construction.  `Buffer.allocUnsafe` is modelled
as zero-filled; every byte that reaches the result is overwritten first. -/
def _evpBytesToKey (md5F : List Nat → List Nat) (password : List Nat)
    (keyLen : Nat) : List Nat :=
  let md5Len := 16
  let cnt := (keyLen - 1) / md5Len + 1
  let m0 := bufCopy (List.replicate (cnt * md5Len) 0) 0 (md5F password)
  let m := (List.range cnt).foldl
    (fun m i =>
      let start := (i + 1) * md5Len
      let d := (m.drop (start - md5Len)).take md5Len ++ password
      bufCopy m start (md5F d))
    m0
  m.take keyLen

/-- The spec's hash chain: `m_0 = MD5(password)`, `m_i = MD5(m_{i-1} || password)`. -/
def md5Chain (md5F : List Nat → List Nat) (password : List Nat) : Nat → List Nat
  | 0 => md5F password
  | i + 1 => md5F (md5Chain md5F password i ++ password)

/-- Modelled from the spec: the master key is the first `keyLen` bytes of
`m_0 || m_1 || ...` (spec section 4.A); `(keyLen-1)/16 + 1` blocks suffice. -/
def evpSpecKey (md5F : List Nat → List Nat) (password : List Nat)
    (keyLen : Nat) : List Nat :=
  (((List.range ((keyLen - 1) / 16 + 1)).map (md5Chain md5F password)).flatten).take keyLen

/-- The cache key `password + keyLen` (string concatenation,
src/encrypt.ts line 37): the password bytes followed by the ASCII decimal
digits of `keyLen`. -/
def cacheKeyOf (password : List Nat) (keyLen : Nat) : List Nat :=
  password ++ (Nat.toDigits 10 keyLen).map Char.toNat

/-- One call of the cached `evpBytesToKey` (src/encrypt.ts lines 35-43),
returning the value and the updated cache (an association list standing for
the `Map`). -/
def evpBytesToKey (md5F : List Nat → List Nat)
    (cache : List (List Nat × List Nat)) (password : List Nat)
    (keyLen : Nat) : List Nat × List (List Nat × List Nat) :=
  let ck := cacheKeyOf password keyLen
  match cache.lookup ck with
  | some v => (v, cache)
  | none =>
      let v := _evpBytesToKey md5F password keyLen
      (v, (ck, v) :: cache)

/-- A sequence of `evpBytesToKey` calls against the shared cache, collecting
the returned keys. -/
def evpCalls (md5F : List Nat → List Nat)
    (calls : List (List Nat × Nat)) : List (List Nat) :=
  (calls.foldl
    (fun (acc : List (List Nat) × List (List Nat × List Nat)) c =>
      let r := evpBytesToKey md5F acc.2 c.1 c.2
      (acc.1 ++ [r.1], r.2))
    ([], [])).1

/-- Invariant of the `evpBytesToKey` cache: every entry was stored by a
call with one of the registry key lengths, under its cache key. -/
def goodCache (md5F : List Nat → List Nat)
    (cache : List (List Nat × List Nat)) : Prop :=
  ∀ e ∈ cache, ∃ pw kl, (kl = 16 ∨ kl = 24 ∨ kl = 32) ∧
    e.1 = cacheKeyOf pw kl ∧ e.2 = _evpBytesToKey md5F pw kl

/-! ## Encryptor (src/encrypt.ts lines 53-108) -/

/-- `new Buffer(2).writeUInt16BE(n)`. -/
def writeUInt16BE (n : Nat) : List Nat := [n / 256 % 256, n % 256]

/-- `buf.readUInt16BE()` on a 2-byte buffer. -/
def readUInt16BE (l : List Nat) : Nat := l.headD 0 * 256 + (l.drop 1).headD 0

/-- Encryptor fields that change across `update` calls. -/
structure EncState where
  key : List Nat
  salt : List Nat
  nonce : List Nat
  isPutSalt : Bool
deriving DecidableEq, Repr

/-- Result of the frame loop: pushed bytes, final nonce, and (ghost
instrumentation) the nonce consumed by each AEAD seal call, in order. -/
structure EncFramesOut where
  out : List Nat
  nonce : List Nat
  nonces : List (List Nat)
deriving DecidableEq, Repr

/-- The body of the `for` loop in `Encryptor.update` (src/encrypt.ts lines
81-101), for input `chunk`, at (0-based) loop index `i0` — the source counts
`i = i0 + 1` from 1 to `times`.  Seals `[lenBuf][tag][payload][tag]` with two
consecutive nonces. -/
def encBody (C : Crypto) (key chunk : List Nat) (acc : EncFramesOut)
    (i0 : Nat) : EncFramesOut :=
  let len := chunk.length
  let times := (len + MAX_PAYLOAD - 1) / MAX_PAYLOAD
  let i := i0 + 1
  let startIndex := (i - 1) * MAX_PAYLOAD
  let payloadLen := if i = times then len - startIndex else MAX_PAYLOAD
  let payload := (chunk.drop startIndex).take payloadLen
  let c1 := sealBytes C key acc.nonce 0 (writeUInt16BE payloadLen)
  let t1 := C.tagOf key acc.nonce c1
  let n1 := increase acc.nonce
  let c2 := sealBytes C key n1 0 payload
  let t2 := C.tagOf key n1 c2
  ⟨acc.out ++ (c1 ++ t1 ++ c2 ++ t2), increase n1, acc.nonces ++ [acc.nonce, n1]⟩

/-- The frame loop of `Encryptor.update` (src/encrypt.ts lines 78-101):
`times = Math.ceil(len / MAX_PAYLOAD)` iterations of `encBody`. -/
def encFrames (C : Crypto) (key : List Nat) (nonce0 : List Nat)
    (chunk : List Nat) : EncFramesOut :=
  let len := chunk.length
  let times := (len + MAX_PAYLOAD - 1) / MAX_PAYLOAD
  (List.range times).foldl (encBody C key chunk) ⟨[], nonce0, []⟩

/-- Result of one or more Encryptor writes. -/
structure EncRun where
  out : List Nat
  st : EncState
  nonces : List (List Nat)
deriving DecidableEq, Repr

/-- `Encryptor.update` (src/encrypt.ts lines 72-102): push the salt on the
first call, then the frames of this chunk. -/
def encUpdate (C : Crypto) (st : EncState) (chunk : List Nat) : EncRun :=
  let saltOut : List Nat := if st.isPutSalt then [] else st.salt
  let st1 : EncState := { st with isPutSalt := true }
  let f := encFrames C st1.key st1.nonce chunk
  ⟨saltOut ++ f.out, { st1 with nonce := f.nonce }, f.nonces⟩

/-- A whole Encryptor run over a list of input chunks. -/
def encRun (C : Crypto) (st : EncState) (chunks : List (List Nat)) : EncRun :=
  chunks.foldl
    (fun r c =>
      let r2 := encUpdate C r.st c
      ⟨r.out ++ r2.out, r2.st, r.nonces ++ r2.nonces⟩)
    ⟨[], st, []⟩

/-- The Encryptor constructor (src/encrypt.ts lines 60-70); the random salt
is a parameter. -/
def encInit (C : Crypto) (m : Method) (password salt : List Nat) : EncState :=
  let info := cipherInfoMap m
  let mainkey := _evpBytesToKey C.md5F password info.keyLen
  ⟨C.hkdfF mainkey info.keyLen salt, salt, List.replicate 12 0, false⟩

/-! ## Decryptor (src/encrypt.ts lines 110-273)

The source's `emitFirstPayload` option (server-side hold mode) is off, as in
the local peer: decrypted bytes are pushed directly. -/

/-- Mutable Decryptor fields.  `key = []` and `buf = []` stand for `null`;
`cipherAcc` is the `_cipher2` GCM context, holding the ciphertext fed to it
so far (`none` = `null`). -/
structure DecState where
  saltLen : Nat
  keyLen : Nat
  mainkey : List Nat
  isGotSalt : Bool
  nonce : List Nat
  salt : List Nat
  key : List Nat
  buf : List Nat
  state : Nat
  payloadLen : Nat
  handledPayloadLen : Nat
  cipherAcc : Option (List Nat)
deriving DecidableEq, Repr

/-- Result of a Decryptor call: pushed plaintext, the object state afterwards
(its fields keep their values when a throw propagates), and the thrown error
if any. -/
structure DecResult where
  out : List Nat
  st : DecState
  err : Option String
deriving DecidableEq, Repr

/-- States 1/2 of the while loop (src/encrypt.ts lines 176-197): wait for the
18-byte length cell, authenticate and decrypt it, validate the length. -/
def sec12 (C : Crypto) (st : DecState) (chunk : List Nat) :
    DecResult ⊕ (DecState × List Nat) :=
  if st.state = 1 ∨ st.state = 2 then
    let st := { st with state := 2 }
    if chunk.length < 18 then .inl ⟨[], { st with buf := chunk }, none⟩
    else
      let c1 := chunk.take 2
      let t1 := (chunk.drop 2).take 16
      -- cipher1.final() throws when the tag does not verify
      if t1 = C.tagOf st.key st.nonce c1 then
        let lenBuf := sealBytes C st.key st.nonce 0 c1
        let st := { st with nonce := increase st.nonce,
                            payloadLen := readUInt16BE lenBuf }
        if MAX_PAYLOAD < st.payloadLen then
          .inl ⟨[], st, some "invalid payload len"⟩
        else
          let st := { st with state := 3 }
          if chunk.length = 18 then .inl ⟨[], st, none⟩
          else .inr (st, chunk.drop 18)
      else .inl ⟨[], st, some "unable to authenticate data"⟩
  else .inr (st, chunk)

/-- State 3 (src/encrypt.ts lines 199-230): stream-decrypt payload bytes as
they arrive (pushing them at once), tracking how much of the payload is done. -/
def sec3 (C : Crypto) (st : DecState) (chunk : List Nat) :
    DecResult ⊕ (DecState × List Nat × List Nat) :=
  if st.state = 3 then
    let acc := st.cipherAcc.getD []
    if chunk.length + st.handledPayloadLen < st.payloadLen then
      let transed := sealBytes C st.key st.nonce st.handledPayloadLen chunk
      .inl ⟨transed,
            { st with cipherAcc := some (acc ++ chunk),
                      handledPayloadLen := st.handledPayloadLen + chunk.length },
            none⟩
    else
      let leftLen := st.payloadLen - st.handledPayloadLen
      let transed := sealBytes C st.key st.nonce st.handledPayloadLen (chunk.take leftLen)
      let st := { st with state := 4,
                          cipherAcc := some (acc ++ chunk.take leftLen),
                          handledPayloadLen := st.payloadLen }
      if leftLen = chunk.length then .inl ⟨transed, st, none⟩
      else .inr (st, chunk.drop leftLen, transed)
  else .inr (st, chunk, [])

/-- State 4 (src/encrypt.ts lines 232-253): wait for the 16 payload-tag
bytes, verify (`_cipher2.final()` throws on mismatch), reset for the next
frame. -/
def sec4 (C : Crypto) (st : DecState) (chunk : List Nat) :
    DecResult ⊕ (DecState × List Nat) :=
  if chunk.length < 16 then .inl ⟨[], { st with buf := chunk }, none⟩
  else if chunk.take 16 = C.tagOf st.key st.nonce (st.cipherAcc.getD []) then
    let st := { st with nonce := increase st.nonce, cipherAcc := none,
                        state := 1, payloadLen := 0, handledPayloadLen := 0 }
    if chunk.length = 16 then .inl ⟨[], st, none⟩
    else .inr (st, chunk.drop 16)
  else .inl ⟨[], st, some "unable to authenticate data"⟩

/-- The `while (true)` loop of `Decryptor.update` (src/encrypt.ts lines
175-254).  Each pass runs the three guarded sections in order; going back to
the top is a recursive call, which strictly consumes bytes, so the fuel
`chunk.length + 1` of the `decLoop` wrapper always suffices. -/
def decLoopF (C : Crypto) : Nat → DecState → List Nat → DecResult
  | 0, st, _ => ⟨[], st, some "out of fuel"⟩
  | fuel + 1, st, chunk =>
    match sec12 C st chunk with
    | .inl r => r
    | .inr (st, chunk) =>
      match sec3 C st chunk with
      | .inl r => r
      | .inr (st, chunk, out) =>
        match sec4 C st chunk with
        | .inl r => { r with out := out ++ r.out }
        | .inr (st, chunk) =>
            let r := decLoopF C fuel st chunk
            { r with out := out ++ r.out }

/-- The frame loop with enough fuel. -/
def decLoop (C : Crypto) (st : DecState) (chunk : List Nat) : DecResult :=
  decLoopF C (chunk.length + 1) st chunk

/-- `Decryptor.update` (src/encrypt.ts lines 159-255): prepend the carry
buffer, take the salt off the front on the first data (raising
"invalid salt" when the very first chunk is shorter than the salt), then run
the frame loop. -/
def decUpdate (C : Crypto) (st : DecState) (chunk0 : List Nat) : DecResult :=
  let chunk := st.buf ++ chunk0
  let st := { st with buf := ([] : List Nat) }
  if st.isGotSalt then decLoop C st chunk
  else if chunk.length < st.saltLen then ⟨[], st, some "invalid salt"⟩
  else
    let salt := chunk.take st.saltLen
    let st := { st with salt := salt,
                        key := C.hkdfF st.mainkey st.keyLen salt,
                        isGotSalt := true }
    if chunk.length = st.saltLen then ⟨[], st, none⟩
    else decLoop C st (chunk.drop st.saltLen)

/-- `_transform` behaviour over a sequence of chunks: a thrown error destroys
the stream, so later chunks are not processed. -/
def stepChunk (C : Crypto) (r : DecResult) (c : List Nat) : DecResult :=
  match r.err with
  | some _ => r
  | none =>
      let r2 := decUpdate C r.st c
      ⟨r.out ++ r2.out, r2.st, r2.err⟩

/-- A whole Decryptor run over a list of input chunks. -/
def decRun (C : Crypto) (st : DecState) (chunks : List (List Nat)) : DecResult :=
  chunks.foldl (stepChunk C) ⟨[], st, none⟩

/-- `Decryptor._flush` (src/encrypt.ts lines 266-272). -/
def decFlush (st : DecState) : Option String :=
  if st.state ≠ 1 then some "invalid data" else none

/-- The Decryptor constructor (src/encrypt.ts lines 128-153), hold mode off. -/
def decInit (C : Crypto) (m : Method) (password : List Nat) : DecState :=
  let info := cipherInfoMap m
  { saltLen := info.saltLen
    keyLen := info.keyLen
    mainkey := _evpBytesToKey C.md5F password info.keyLen
    isGotSalt := false
    nonce := List.replicate 12 0
    salt := []
    key := []
    buf := []
    state := 1
    payloadLen := 0
    handledPayloadLen := 0
    cipherAcc := none }

/-- The Decryptor state right after the salt was taken off the stream. -/
def saltedSt (C : Crypto) (m : Method) (password salt : List Nat) : DecState :=
  { decInit C m password with
      buf := []
      salt := salt
      key := C.hkdfF (decInit C m password).mainkey (decInit C m password).keyLen salt
      isGotSalt := true }

/-! ## Local-peer tunnel setup traces (src/unnamed/part_009)

`useTcpTunnel` (lines 199-238) and `useWebSocketTunnel` (lines 240-265) are
straight-line async functions; each is transcribed as the ordered list of its
externally visible steps.  `tunnelConnected` is the resolution of the
transport's connect event; in `useTcpTunnel` the code awaits it before
anything else, while `useWebSocketTunnel` never waits for the WebSocket to
open inside the function body (the open completes in a later event-loop turn,
after every synchronous step below). -/

inductive SockEvent
  | tunnelCreate
  | tunnelConnected
  | sockWrite (bytes : List Nat)
  | tunnelWrite
  | pipesWired
deriving DecidableEq, Repr

/-- `this.reply(0x00)`: `05 00 00 01 0.0.0.0:0` (part_009 lines 121-123). -/
def socks5SuccessReply : List Nat := [0x05, 0x00, 0x00, 0x01, 0, 0, 0, 0, 0, 0]

/-- `useTcpTunnel` success path (part_009 lines 199-238): create the TCP
connection, await its connect event, then write the SOCKS5 success reply and
wire the codec pipes. -/
def useTcpTunnelTrace : List SockEvent :=
  [.tunnelCreate, .tunnelConnected, .sockWrite socks5SuccessReply, .pipesWired]

/-- `useWebSocketTunnel` body (part_009 lines 240-265): create the WebSocket
stream, then immediately write the SOCKS5 success reply, write the address
head to the tunnel, and wire the pipes — all before the WebSocket's open
event can fire. -/
def useWebSocketTunnelTrace : List SockEvent :=
  [.tunnelCreate, .sockWrite socks5SuccessReply, .tunnelWrite, .pipesWired]

/-- A trace never writes the SOCKS5 success reply to the client before the
tunnel transport has connected. -/
def replyAfterConnected : List SockEvent → Bool → Bool
  | [], _ => true
  | .tunnelConnected :: rest, _ => replyAfterConnected rest true
  | .sockWrite b :: rest, conn =>
      if b = socks5SuccessReply then conn && replyAfterConnected rest conn
      else replyAfterConnected rest conn
  | _ :: rest, conn => replyAfterConnected rest conn

/-! ## Concrete primitive instances for witnesses and counterexamples

These instantiate the abstract `Crypto` parameters; theorems quantify over
arbitrary primitives, these only let closed statements evaluate. -/

/-- Degenerate primitives: zero keystream (ciphertext = plaintext), all-zero
tags. -/
def cZero : Crypto :=
  ⟨fun _ => List.replicate 16 0,
   fun _ kl _ => List.replicate kl 0,
   fun _ _ _ => 0,
   fun _ _ _ => List.replicate 16 0⟩

/-- A 16-byte tag that depends on the key, nonce and ciphertext, so that
corrupting the ciphertext changes the expected tag. -/
def sumTag (key nonce c : List Nat) : List Nat :=
  List.replicate 15 0 ++ [(key.sum + nonce.sum + c.sum + c.length) % 256]

/-- Primitives with a content-sensitive tag. -/
def cSum : Crypto := { cZero with tagOf := sumTag }

/-- One wire frame for payload `p`: the length cell sealed with `nonce`, its
tag, the payload sealed with `increase nonce`, its tag. -/
def mkFrame (C : Crypto) (key nonce p : List Nat) : List Nat :=
  let c1 := sealBytes C key nonce 0 (writeUInt16BE p.length)
  let t1 := C.tagOf key nonce c1
  let n1 := increase nonce
  let c2 := sealBytes C key n1 0 p
  let t2 := C.tagOf key n1 c2
  c1 ++ t1 ++ c2 ++ t2

/-- The frame stream for a list of payloads, consuming two nonces per frame. -/
def framesBytes (C : Crypto) (key : List Nat) : List Nat → List (List Nat) → List Nat
  | _, [] => []
  | nonce, p :: ps =>
      mkFrame C key nonce p ++ framesBytes C key (increase (increase nonce)) ps

/-- The nonces consumed by `k` frames starting from `nonce`. -/
def nonceSeq : List Nat → Nat → List (List Nat)
  | _, 0 => []
  | nonce, k + 1 =>
      nonce :: increase nonce :: nonceSeq (increase (increase nonce)) k

/-- How `Encryptor.update` slices a chunk: pieces of `MAX_PAYLOAD` bytes,
the last piece shorter. -/
def splitPayload (chunk : List Nat) : List (List Nat) :=
  if h : chunk = [] then []
  else
    chunk.take (min chunk.length MAX_PAYLOAD) ::
      splitPayload (chunk.drop (min chunk.length MAX_PAYLOAD))
termination_by chunk.length
decreasing_by
  simp only [List.length_drop]
  have : chunk.length ≠ 0 := fun hz => h (List.eq_nil_of_length_eq_zero hz)
  simp only [MAX_PAYLOAD]
  omega

/-- The Decryptor state after one complete frame: back at state 1, nonce
advanced twice, per-frame fields cleared. -/
def resetSt (st : DecState) : DecState :=
  { st with
      state := 1
      nonce := increase (increase st.nonce)
      payloadLen := 0
      handledPayloadLen := 0
      cipherAcc := none }

/-- The Decryptor state after `k` complete frames. -/
def resetIter (st : DecState) (k : Nat) : DecState :=
  { st with
      state := 1
      nonce := increase^[2 * k] st.nonce
      payloadLen := 0
      handledPayloadLen := 0
      cipherAcc := none }

/-- The Decryptor state after finishing the current frame from mid-frame:
only the payload-cell nonce increase is still pending. -/
def reset1 (st : DecState) : DecState :=
  { st with
      state := 1
      nonce := increase st.nonce
      payloadLen := 0
      handledPayloadLen := 0
      cipherAcc := none }

/-! ## Basic lemmas: keystream sealing, nonce counter -/

@[simp] theorem sealBytes_nil (C : Crypto) (key nonce : List Nat) (off : Nat) :
    sealBytes C key nonce off [] = [] := rfl

theorem sealBytes_cons (C : Crypto) (key nonce : List Nat) (off : Nat)
    (b : Nat) (l : List Nat) :
    sealBytes C key nonce off (b :: l) =
      (b ^^^ C.ks key nonce off % 256) :: sealBytes C key nonce (off + 1) l := rfl

@[simp] theorem sealBytes_length (C : Crypto) (key nonce : List Nat) :
    ∀ (off : Nat) (l : List Nat), (sealBytes C key nonce off l).length = l.length
  | _, [] => rfl
  | off, b :: l => by
      simp [sealBytes_cons, sealBytes_length C key nonce (off + 1) l]

theorem sealBytes_append (C : Crypto) (key nonce : List Nat) :
    ∀ (off : Nat) (a b : List Nat),
      sealBytes C key nonce off (a ++ b) =
        sealBytes C key nonce off a ++ sealBytes C key nonce (off + a.length) b
  | _, [], _ => by simp
  | off, x :: a, b => by
      simp only [List.cons_append, sealBytes_cons,
        sealBytes_append C key nonce (off + 1) a b, List.length_cons]
      rw [show off + (a.length + 1) = off + 1 + a.length from by omega]

/-- Sealing is an involution: decrypting a sealed string at the same
position recovers the plaintext. -/
theorem sealBytes_sealBytes (C : Crypto) (key nonce : List Nat) :
    ∀ (off : Nat) (l : List Nat),
      sealBytes C key nonce off (sealBytes C key nonce off l) = l
  | _, [] => rfl
  | off, b :: l => by
      simp only [sealBytes_cons, Nat.xor_cancel_right]
      exact congrArg _ (sealBytes_sealBytes C key nonce (off + 1) l)

theorem sealBytes_take (C : Crypto) (key nonce : List Nat) :
    ∀ (off n : Nat) (l : List Nat),
      sealBytes C key nonce off (l.take n) = (sealBytes C key nonce off l).take n
  | _, 0, _ => by simp
  | _, _ + 1, [] => by simp
  | off, n + 1, b :: l => by
      simp only [List.take_succ_cons, sealBytes_cons]
      exact congrArg _ (sealBytes_take C key nonce (off + 1) n l)

theorem sealBytes_drop (C : Crypto) (key nonce : List Nat) :
    ∀ (off n : Nat) (l : List Nat),
      sealBytes C key nonce (off + n) (l.drop n) = (sealBytes C key nonce off l).drop n
  | _, 0, _ => by simp
  | _, _ + 1, [] => by simp
  | off, n + 1, b :: l => by
      simp only [List.drop_succ_cons, sealBytes_cons]
      have := sealBytes_drop C key nonce (off + 1) n l
      rw [show off + (n + 1) = off + 1 + n by omega]
      exact this

@[simp] theorem increase_length : ∀ (l : List Nat), (increase l).length = l.length
  | [] => rfl
  | b :: l => by
      simp only [increase]
      split <;> simp [increase_length l]

theorem increase_valid : ∀ (l : List Nat), (∀ b ∈ l, b < 256) →
    ∀ b ∈ increase l, b < 256 := by
  intro l
  induction l with
  | nil => intro _ b hb; simp [increase] at hb
  | cons x l ih =>
      intro h b hb
      have hmod : (x + 1) % 256 < 256 := Nat.mod_lt _ (by omega)
      simp only [increase] at hb
      by_cases hx : (x + 1) % 256 = 0
      · rw [if_pos hx] at hb
        rcases List.mem_cons.1 hb with h1 | h1
        · omega
        · exact ih (fun c hc => h c (by simp [hc])) b h1
      · rw [if_neg hx] at hb
        rcases List.mem_cons.1 hb with h1 | h1
        · omega
        · exact h b (by simp [h1])

theorem leVal_lt : ∀ (l : List Nat), (∀ b ∈ l, b < 256) → leVal l < 256 ^ l.length
  | [], _ => by simp [leVal]
  | b :: l, h => by
      have h1 : b < 256 := h b (by simp)
      have h2 : leVal l + 1 ≤ 256 ^ l.length :=
        leVal_lt l (fun c hc => h c (by simp [hc]))
      have h3 : 256 * (leVal l + 1) ≤ 256 * 256 ^ l.length :=
        Nat.mul_le_mul_left _ h2
      simp only [leVal, List.length_cons, pow_succ]
      omega

/-- The counter increments as a little-endian integer, wrapping at
`256 ^ length`. -/
theorem leVal_increase : ∀ (l : List Nat), (∀ b ∈ l, b < 256) →
    leVal (increase l) = (leVal l + 1) % 256 ^ l.length
  | [], _ => by simp [increase, leVal]
  | b :: l, h => by
      have hb : b < 256 := h b (by simp)
      have hl : ∀ c ∈ l, c < 256 := fun c hc => h c (by simp [hc])
      have hlt : leVal l + 1 ≤ 256 ^ l.length := leVal_lt l hl
      simp only [increase, leVal, List.length_cons]
      by_cases hwrap : (b + 1) % 256 = 0
      · have hb255 : b = 255 := by omega
        rw [if_pos hwrap, hwrap]
        simp only [leVal, leVal_increase l hl, hb255, pow_succ]
        rw [show 255 + 256 * leVal l + 1 = 256 * (leVal l + 1) by ring,
          show (256 : Nat) ^ l.length * 256 = 256 * 256 ^ l.length by ring,
          Nat.mul_mod_mul_left]
        omega
      · have hb1 : b + 1 < 256 := by omega
        rw [if_neg hwrap, Nat.mod_eq_of_lt hb1]
        simp only [leVal, pow_succ]
        have hfit : b + 256 * leVal l + 1 < 256 ^ l.length * 256 := by
          have : 256 * (leVal l + 1) ≤ 256 * 256 ^ l.length :=
            Nat.mul_le_mul_left _ hlt
          omega
        rw [Nat.mod_eq_of_lt hfit]
        omega

theorem iterate_increase_valid (i : Nat) :
    ∀ b ∈ increase^[i] zeroNonce, b < 256 := by
  induction i with
  | zero => intro b hb; simp only [Function.iterate_zero, id] at hb
            simp only [zeroNonce] at hb
            have := List.eq_of_mem_replicate hb; omega
  | succ n ih => rw [Function.iterate_succ_apply']
                 exact increase_valid _ ih

@[simp] theorem iterate_increase_length (i : Nat) :
    (increase^[i] zeroNonce).length = 12 := by
  induction i with
  | zero => simp [zeroNonce]
  | succ n ih => rw [Function.iterate_succ_apply', increase_length, ih]

/-- The i-th successive nonce is the little-endian encoding of
`i mod 2^96`. -/
theorem leVal_iterate_increase (i : Nat) :
    leVal (increase^[i] zeroNonce) = i % 256 ^ 12 := by
  induction i with
  | zero => simp [zeroNonce, leVal]
  | succ n ih =>
      rw [Function.iterate_succ_apply',
        leVal_increase _ (iterate_increase_valid n),
        iterate_increase_length, ih, Nat.mod_add_mod]

/-! ## Frame-level characterization of the Encryptor -/

@[simp] theorem splitPayload_nil : splitPayload ([] : List Nat) = [] := by
  rw [splitPayload]; simp

theorem encBody_foldl_acc (C : Crypto) (key chunk : List Nat) :
    ∀ (l : List Nat) (out nonce : List Nat) (tr : List (List Nat)),
      List.foldl (encBody C key chunk) ⟨out, nonce, tr⟩ l =
        ⟨out ++ (List.foldl (encBody C key chunk) ⟨[], nonce, []⟩ l).out,
         (List.foldl (encBody C key chunk) ⟨[], nonce, []⟩ l).nonce,
         tr ++ (List.foldl (encBody C key chunk) ⟨[], nonce, []⟩ l).nonces⟩ := by
  intro l
  induction l with
  | nil => intro out nonce tr; simp
  | cons i l ih =>
      intro out nonce tr
      rw [List.foldl_cons, List.foldl_cons]
      have hb : ∀ (a : EncFramesOut) (j : Nat), encBody C key chunk a j =
          ⟨a.out ++ (encBody C key chunk ⟨[], a.nonce, []⟩ j).out,
           (encBody C key chunk ⟨[], a.nonce, []⟩ j).nonce,
           a.nonces ++ (encBody C key chunk ⟨[], a.nonce, []⟩ j).nonces⟩ := by
        intro a j
        simp [encBody]
      rw [hb ⟨out, nonce, tr⟩ i, ih, ih (encBody C key chunk ⟨[], nonce, []⟩ i).out _
        (encBody C key chunk ⟨[], nonce, []⟩ i).nonces]
      simp

/-- `Math.ceil(len / MAX_PAYLOAD)` for a short chunk. -/
theorem times_of_le (len : Nat) (h0 : 0 < len) (h : len ≤ MAX_PAYLOAD) :
    (len + MAX_PAYLOAD - 1) / MAX_PAYLOAD = 1 := by
  simp only [MAX_PAYLOAD] at *
  omega

/-- `Math.ceil(len / MAX_PAYLOAD)` shifts by one when dropping a full piece. -/
theorem times_of_gt (len : Nat) (h : MAX_PAYLOAD < len) :
    (len + MAX_PAYLOAD - 1) / MAX_PAYLOAD =
      (len - MAX_PAYLOAD + MAX_PAYLOAD - 1) / MAX_PAYLOAD + 1 := by
  simp only [MAX_PAYLOAD] at *
  omega

/-- The loop of `Encryptor.update` is the frame stream of `splitPayload`:
output, final nonce, and consumed-nonce trace. -/
theorem encFrames_eq (C : Crypto) (key : List Nat) : ∀ (chunk nonce0 : List Nat),
    encFrames C key nonce0 chunk =
      ⟨framesBytes C key nonce0 (splitPayload chunk),
       increase^[2 * (splitPayload chunk).length] nonce0,
       nonceSeq nonce0 (splitPayload chunk).length⟩ := by
  have H : ∀ (len : Nat) (chunk : List Nat), chunk.length = len →
      ∀ (nonce0 : List Nat),
      encFrames C key nonce0 chunk =
        ⟨framesBytes C key nonce0 (splitPayload chunk),
         increase^[2 * (splitPayload chunk).length] nonce0,
         nonceSeq nonce0 (splitPayload chunk).length⟩ := by
    intro len
    induction len using Nat.strong_induction_on with
    | _ len ih =>
    intro chunk hind nonce0
    by_cases hnil : chunk = []
    · subst hnil
      simp [encFrames, framesBytes, nonceSeq, MAX_PAYLOAD]
    · have hlen0 : 0 < chunk.length := List.length_pos_of_ne_nil hnil
      subst hind
      set m := min chunk.length MAX_PAYLOAD with hm
      have hm1 : 1 ≤ m := by
        simp only [hm, MAX_PAYLOAD]; omega
      have hmle : m ≤ chunk.length := min_le_left _ _
      have hsplit : splitPayload chunk =
          chunk.take m :: splitPayload (chunk.drop m) := by
        rw [splitPayload]; simp [hnil]
      have htake_len : (chunk.take m).length = m := by
        simp [List.length_take, hmle]
      rcases Nat.lt_or_ge MAX_PAYLOAD chunk.length with hgt | hle
      · -- long chunk: first piece is MAX_PAYLOAD, the rest recurses
        have hmMAX : m = MAX_PAYLOAD := by simp only [hm]; omega
        have htimes := times_of_gt chunk.length hgt
        have hdroplen : (chunk.drop MAX_PAYLOAD).length =
            chunk.length - MAX_PAYLOAD := by simp
        have hne2 : (chunk.length + MAX_PAYLOAD - 1) / MAX_PAYLOAD =
            ((chunk.drop MAX_PAYLOAD).length + MAX_PAYLOAD - 1) / MAX_PAYLOAD + 1 := by
          rw [hdroplen]; exact htimes
        rw [encFrames, hne2, List.range_succ_eq_map, List.foldl_cons, List.foldl_map]
        have hshift : (fun (acc : EncFramesOut) (i0 : Nat) =>
            encBody C key chunk acc i0.succ) =
            encBody C key (chunk.drop MAX_PAYLOAD) := by
          funext acc i0
          have h1 : i0 + 1 + 1 = (chunk.length + MAX_PAYLOAD - 1) / MAX_PAYLOAD ↔
              i0 + 1 = ((chunk.drop MAX_PAYLOAD).length + MAX_PAYLOAD - 1) / MAX_PAYLOAD := by
            rw [hne2]; omega
          have h2 : chunk.length - (i0 + 1) * MAX_PAYLOAD =
              (chunk.drop MAX_PAYLOAD).length - i0 * MAX_PAYLOAD := by
            rw [hdroplen]
            have : (i0 + 1) * MAX_PAYLOAD = MAX_PAYLOAD + i0 * MAX_PAYLOAD := by ring
            omega
          have h3 : chunk.drop ((i0 + 1) * MAX_PAYLOAD) =
              (chunk.drop MAX_PAYLOAD).drop (i0 * MAX_PAYLOAD) := by
            rw [List.drop_drop]
            congr 1
            ring
          have hif : (if i0 + 1 + 1 = (chunk.length + MAX_PAYLOAD - 1) / MAX_PAYLOAD
                then chunk.length - (i0 + 1) * MAX_PAYLOAD else MAX_PAYLOAD)
              = (if i0 + 1 = ((chunk.drop MAX_PAYLOAD).length + MAX_PAYLOAD - 1) / MAX_PAYLOAD
                then (chunk.drop MAX_PAYLOAD).length - i0 * MAX_PAYLOAD
                else MAX_PAYLOAD) := by
            by_cases hc : i0 + 1 =
                ((chunk.drop MAX_PAYLOAD).length + MAX_PAYLOAD - 1) / MAX_PAYLOAD
            · rw [if_pos (h1.2 hc), if_pos hc, h2]
            · rw [if_neg (fun hcc => hc (h1.1 hcc)), if_neg hc]
          show encBody C key chunk acc (i0 + 1) = encBody C key (chunk.drop MAX_PAYLOAD) acc i0
          simp only [encBody, Nat.add_sub_cancel]
          rw [hif, h3]
        have hbody : encBody C key chunk ⟨[], nonce0, []⟩ 0 =
            ⟨mkFrame C key nonce0 (chunk.take m), increase (increase nonce0),
             [nonce0, increase nonce0]⟩ := by
          have hineq : 1 ≤ ((chunk.drop MAX_PAYLOAD).length + MAX_PAYLOAD - 1) / MAX_PAYLOAD := by
            rw [hdroplen]
            simp only [MAX_PAYLOAD] at hgt ⊢
            omega
          simp only [encBody, mkFrame, htake_len]
          rw [hne2, if_neg (by omega)]
          simp [hmMAX]
        rw [hshift, hbody, encBody_foldl_acc]
        have hrec2 := ih (chunk.drop MAX_PAYLOAD).length
          (by rw [hdroplen]; simp only [MAX_PAYLOAD] at *; omega)
          (chunk.drop MAX_PAYLOAD) rfl (increase (increase nonce0))
        simp only [encFrames] at hrec2
        rw [hrec2, hsplit]
        simp only [framesBytes, nonceSeq, List.length_cons, hmMAX]
        rw [show 2 * ((splitPayload (chunk.drop MAX_PAYLOAD)).length + 1) =
          2 * (splitPayload (chunk.drop MAX_PAYLOAD)).length + 2 from by ring,
          Function.iterate_add_apply]
        rfl
      · -- short chunk: exactly one frame
        have hmlen : m = chunk.length := by simp only [hm]; omega
        have htimes := times_of_le chunk.length hlen0 hle
        have hdrop : chunk.drop m = [] := by
          rw [hmlen]; simp
        have htake : chunk.take m = chunk := by
          rw [hmlen]; simp
        rw [encFrames, htimes]
        have hr1 : List.range 1 = [0] := rfl
        rw [hr1, List.foldl_cons, List.foldl_nil]
        have hbody : encBody C key chunk ⟨[], nonce0, []⟩ 0 =
            ⟨mkFrame C key nonce0 chunk, increase (increase nonce0),
             [nonce0, increase nonce0]⟩ := by
          simp only [encBody, mkFrame, htimes]
          simp
        rw [hbody, hsplit, hdrop, htake, splitPayload_nil]
        simp only [framesBytes, nonceSeq, List.length_cons, List.length_nil,
          List.append_nil]
        rfl
  intro chunk nonce0
  exact H chunk.length chunk rfl nonce0

/-! ## splitPayload facts -/

theorem splitPayload_flatten : ∀ (chunk : List Nat), (splitPayload chunk).flatten = chunk := by
  have H : ∀ (len : Nat) (chunk : List Nat), chunk.length = len →
      (splitPayload chunk).flatten = chunk := by
    intro len
    induction len using Nat.strong_induction_on with
    | _ len ih =>
    intro chunk hind
    by_cases hnil : chunk = []
    · subst hnil; simp
    · subst hind
      have hlen0 : 0 < chunk.length := List.length_pos_of_ne_nil hnil
      rw [splitPayload]
      simp only [hnil, dite_false]
      set m := min chunk.length MAX_PAYLOAD with hm
      have hm1 : 1 ≤ m := by simp only [hm, MAX_PAYLOAD]; omega
      have hrec := ih (chunk.drop m).length
        (by simp only [List.length_drop]; omega) (chunk.drop m) rfl
      simp only [List.flatten_cons, hrec, List.take_append_drop]
  intro chunk
  exact H chunk.length chunk rfl

theorem splitPayload_piece_bounds : ∀ (chunk p : List Nat), p ∈ splitPayload chunk →
    1 ≤ p.length ∧ p.length ≤ MAX_PAYLOAD := by
  have H : ∀ (len : Nat) (chunk : List Nat), chunk.length = len →
      ∀ p ∈ splitPayload chunk, 1 ≤ p.length ∧ p.length ≤ MAX_PAYLOAD := by
    intro len
    induction len using Nat.strong_induction_on with
    | _ len ih =>
    intro chunk hind p hp
    by_cases hnil : chunk = []
    · subst hnil; simp at hp
    · subst hind
      have hlen0 : 0 < chunk.length := List.length_pos_of_ne_nil hnil
      rw [splitPayload] at hp
      simp only [hnil, dite_false] at hp
      set m := min chunk.length MAX_PAYLOAD with hm
      have hm1 : 1 ≤ m := by simp only [hm, MAX_PAYLOAD]; omega
      have hmle : m ≤ chunk.length := min_le_left _ _
      rcases List.mem_cons.1 hp with h1 | h1
      · subst h1
        constructor
        · simp only [List.length_take]; omega
        · simp only [List.length_take, hm]; omega
      · exact ih (chunk.drop m).length
          (by simp only [List.length_drop]; omega) (chunk.drop m) rfl p h1
  intro chunk
  exact H chunk.length chunk rfl

theorem splitPayload_count : ∀ (chunk : List Nat),
    (splitPayload chunk).length = (chunk.length + MAX_PAYLOAD - 1) / MAX_PAYLOAD := by
  have H : ∀ (len : Nat) (chunk : List Nat), chunk.length = len →
      (splitPayload chunk).length = (chunk.length + MAX_PAYLOAD - 1) / MAX_PAYLOAD := by
    intro len
    induction len using Nat.strong_induction_on with
    | _ len ih =>
    intro chunk hind
    by_cases hnil : chunk = []
    · subst hnil; simp [MAX_PAYLOAD]
    · subst hind
      have hlen0 : 0 < chunk.length := List.length_pos_of_ne_nil hnil
      rw [splitPayload]
      simp only [hnil, dite_false, List.length_cons]
      set m := min chunk.length MAX_PAYLOAD with hm
      have hm1 : 1 ≤ m := by simp only [hm, MAX_PAYLOAD]; omega
      rw [ih (chunk.drop m).length
        (by simp only [List.length_drop]; omega) (chunk.drop m) rfl]
      simp only [List.length_drop]
      rcases Nat.lt_or_ge MAX_PAYLOAD chunk.length with hgt | hle
      · have hmMAX : m = MAX_PAYLOAD := by simp only [hm]; omega
        rw [hmMAX, times_of_gt chunk.length hgt]
      · have hmlen : m = chunk.length := by simp only [hm]; omega
        rw [hmlen, times_of_le chunk.length hlen0 hle]
        simp [MAX_PAYLOAD]
  intro chunk
  exact H chunk.length chunk rfl

/-- Declared frame lengths: `MAX_PAYLOAD` everywhere except the final piece. -/
theorem splitPayload_map_length : ∀ (chunk : List Nat), chunk ≠ [] →
    (splitPayload chunk).map List.length =
      List.replicate ((splitPayload chunk).length - 1) MAX_PAYLOAD ++
        [chunk.length - MAX_PAYLOAD * ((splitPayload chunk).length - 1)] := by
  have H : ∀ (len : Nat) (chunk : List Nat), chunk.length = len → chunk ≠ [] →
      (splitPayload chunk).map List.length =
        List.replicate ((splitPayload chunk).length - 1) MAX_PAYLOAD ++
          [chunk.length - MAX_PAYLOAD * ((splitPayload chunk).length - 1)] := by
    intro len
    induction len using Nat.strong_induction_on with
    | _ len ih =>
    intro chunk hind hnil
    subst hind
    have hlen0 : 0 < chunk.length := List.length_pos_of_ne_nil hnil
    rw [splitPayload]
    simp only [hnil, dite_false]
    set m := min chunk.length MAX_PAYLOAD with hm
    have hm1 : 1 ≤ m := by simp only [hm, MAX_PAYLOAD]; omega
    have hmle : m ≤ chunk.length := min_le_left _ _
    rcases Nat.lt_or_ge MAX_PAYLOAD chunk.length with hgt | hle
    · have hmMAX : m = MAX_PAYLOAD := by simp only [hm]; omega
      have hdne : chunk.drop m ≠ [] := by
        intro hd
        have := congrArg List.length hd
        simp only [List.length_drop, List.length_nil] at this
        omega
      have hrec := ih (chunk.drop m).length
        (by simp only [List.length_drop]; omega) (chunk.drop m) rfl hdne
      have hkpos : 1 ≤ (splitPayload (chunk.drop m)).length := by
        have : splitPayload (chunk.drop m) ≠ [] := by
          intro hsp
          have := splitPayload_flatten (chunk.drop m)
          rw [hsp] at this
          exact hdne this.symm
        exact List.length_pos_of_ne_nil this
      simp only [List.map_cons, List.length_cons, hrec, List.length_take,
        List.length_drop]
      rw [show (splitPayload (List.drop m chunk)).length + 1 - 1 =
        (splitPayload (List.drop m chunk)).length - 1 + 1 from by omega,
        List.replicate_succ]
      simp only [List.cons_append, List.cons.injEq]
      refine ⟨?_, ?_⟩
      · simp only [MAX_PAYLOAD] at hmMAX hgt ⊢
        omega
      · have harith : chunk.length - m -
            MAX_PAYLOAD * ((splitPayload (List.drop m chunk)).length - 1) =
            chunk.length -
              MAX_PAYLOAD * ((splitPayload (List.drop m chunk)).length - 1 + 1) := by
          simp only [MAX_PAYLOAD] at hmMAX ⊢
          omega
        rw [harith]
    · have hmlen : m = chunk.length := by simp only [hm]; omega
      have hdrop : chunk.drop m = [] := by rw [hmlen]; simp
      rw [hdrop, splitPayload_nil]
      simp only [List.map_cons, List.map_nil, List.length_cons, List.length_nil,
        List.length_take]
      simp [hmlen]
  intro chunk
  exact H chunk.length chunk rfl

/-! ## Encryptor run characterization -/

theorem iterate_two (nonce : List Nat) :
    increase^[2] nonce = increase (increase nonce) := rfl

theorem framesBytes_append (C : Crypto) (key : List Nat) :
    ∀ (ps qs : List (List Nat)) (nonce : List Nat),
      framesBytes C key nonce (ps ++ qs) =
        framesBytes C key nonce ps ++
          framesBytes C key (increase^[2 * ps.length] nonce) qs
  | [], qs, nonce => by simp [framesBytes]
  | p :: ps, qs, nonce => by
      have h2 : increase^[2 * (ps.length + 1)] nonce =
          increase^[2 * ps.length] (increase (increase nonce)) := by
        rw [show 2 * (ps.length + 1) = 2 * ps.length + 2 from by ring,
          Function.iterate_add_apply, iterate_two]
      show mkFrame C key nonce p ++
          framesBytes C key (increase (increase nonce)) (ps ++ qs) =
        mkFrame C key nonce p ++
            framesBytes C key (increase (increase nonce)) ps ++
          framesBytes C key (increase^[2 * (p :: ps).length] nonce) qs
      rw [framesBytes_append C key ps qs (increase (increase nonce)),
        List.append_assoc]
      simp only [List.length_cons, h2]

theorem nonceSeq_append : ∀ (j k : Nat) (nonce : List Nat),
    nonceSeq nonce (j + k) =
      nonceSeq nonce j ++ nonceSeq (increase^[2 * j] nonce) k
  | 0, k, nonce => by simp [nonceSeq]
  | j + 1, k, nonce => by
      have h2 : increase^[2 * (j + 1)] nonce =
          increase^[2 * j] (increase (increase nonce)) := by
        rw [show 2 * (j + 1) = 2 * j + 2 from by ring,
          Function.iterate_add_apply, iterate_two]
      rw [show j + 1 + k = (j + k) + 1 from by ring]
      simp only [nonceSeq, nonceSeq_append j k (increase (increase nonce)),
        List.cons_append, h2]

theorem nonceSeq_eq_map : ∀ (k : Nat) (nonce : List Nat),
    nonceSeq nonce k = (List.range (2 * k)).map (fun i => increase^[i] nonce)
  | 0, nonce => by simp [nonceSeq]
  | k + 1, nonce => by
      rw [show 2 * (k + 1) = (2 * k + 1) + 1 from by ring,
        List.range_succ_eq_map, List.range_succ_eq_map]
      simp only [List.map_cons, List.map_map, nonceSeq,
        nonceSeq_eq_map k (increase (increase nonce))]
      refine congrArg₂ _ rfl (congrArg₂ _ rfl ?_)
      apply List.map_congr_left
      intro i hi
      simp only [Function.comp_apply, Nat.succ_eq_add_one]
      rw [show i + 1 + 1 = i + 2 from by ring, Function.iterate_add_apply,
        iterate_two]

/-- `Encryptor.update` from a post-salt state. -/
theorem encUpdate_isPutSalt (C : Crypto) (key salt nonce : List Nat) (chunk : List Nat) :
    encUpdate C ⟨key, salt, nonce, true⟩ chunk =
      ⟨framesBytes C key nonce (splitPayload chunk),
       ⟨key, salt, increase^[2 * (splitPayload chunk).length] nonce, true⟩,
       nonceSeq nonce (splitPayload chunk).length⟩ := by
  simp only [encUpdate, encFrames_eq, if_pos]
  rfl

/-- `Encryptor.update` on the first write: salt first. -/
theorem encUpdate_first (C : Crypto) (key salt nonce : List Nat) (chunk : List Nat) :
    encUpdate C ⟨key, salt, nonce, false⟩ chunk =
      ⟨salt ++ framesBytes C key nonce (splitPayload chunk),
       ⟨key, salt, increase^[2 * (splitPayload chunk).length] nonce, true⟩,
       nonceSeq nonce (splitPayload chunk).length⟩ := by
  simp only [encUpdate, encFrames_eq]
  rfl

/-- An Encryptor run after the salt went out: frames of all pieces in order,
nonces consumed consecutively. -/
theorem encRun_post (C : Crypto) :
    ∀ (chunks : List (List Nat)) (key salt nonce out0 : List Nat)
      (tr0 : List (List Nat)),
      List.foldl (fun r c =>
          let r2 := encUpdate C r.st c
          ⟨r.out ++ r2.out, r2.st, r.nonces ++ r2.nonces⟩)
        (⟨out0, ⟨key, salt, nonce, true⟩, tr0⟩ : EncRun) chunks =
        ⟨out0 ++ framesBytes C key nonce ((chunks.map splitPayload).flatten),
         ⟨key, salt,
          increase^[2 * ((chunks.map splitPayload).flatten).length] nonce, true⟩,
         tr0 ++ nonceSeq nonce ((chunks.map splitPayload).flatten).length⟩
  | [], key, salt, nonce, out0, tr0 => by simp [framesBytes, nonceSeq]
  | c :: chunks, key, salt, nonce, out0, tr0 => by
      rw [List.foldl_cons]
      simp only [encUpdate_isPutSalt]
      rw [encRun_post C chunks key salt _ _ _]
      simp only [List.map_cons, List.flatten_cons, List.length_append,
        framesBytes_append, nonceSeq_append, List.append_assoc]
      rw [show 2 * ((splitPayload c).length + ((chunks.map splitPayload).flatten).length) =
        2 * (splitPayload c).length + 2 * ((chunks.map splitPayload).flatten).length
        from by ring, Nat.add_comm (2 * (splitPayload c).length),
        Function.iterate_add_apply]

/-- A whole Encryptor run: the salt, then the frames of every piece, with
nonces `0, 1, 2, ...` consumed in order. -/
theorem encRun_eq (C : Crypto) (key salt : List Nat) (c : List Nat)
    (chunks : List (List Nat)) :
    encRun C ⟨key, salt, zeroNonce, false⟩ (c :: chunks) =
      ⟨salt ++ framesBytes C key zeroNonce
        (((c :: chunks).map splitPayload).flatten),
       ⟨key, salt,
        increase^[2 * ((((c :: chunks).map splitPayload).flatten)).length] zeroNonce,
        true⟩,
       nonceSeq zeroNonce ((((c :: chunks).map splitPayload).flatten)).length⟩ := by
  rw [encRun, List.foldl_cons]
  simp only [encUpdate_first]
  rw [encRun_post]
  simp only [List.map_cons, List.flatten_cons, List.length_append,
    framesBytes_append, nonceSeq_append, List.append_assoc]
  rw [show 2 * ((splitPayload c).length + ((chunks.map splitPayload).flatten).length) =
    2 * (splitPayload c).length + 2 * ((chunks.map splitPayload).flatten).length
    from by ring, Nat.add_comm (2 * (splitPayload c).length),
    Function.iterate_add_apply]
  simp only [List.nil_append]

/-! ## Claims about the Encryptor: C3 and C4 -/

/-- C3: for every Encryptor run producing `k` frames, the nonces consumed by
the `2k` AEAD seal operations are the successive `increase`-iterates of the
zero nonce, in order — the length cell of frame `i` uses nonce `2i` and its
payload cell nonce `2i+1` — and read as little-endian 96-bit integers these
values are exactly `0, 1, …, 2k−1 (mod 2^96)`. -/
theorem c3_nonce_sequence (C : Crypto) (key salt : List Nat)
    (chunks : List (List Nat)) :
    (encRun C ⟨key, salt, zeroNonce, false⟩ chunks).nonces =
      (List.range (2 * ((chunks.map splitPayload).flatten).length)).map
        (fun i => increase^[i] zeroNonce) ∧
    ((encRun C ⟨key, salt, zeroNonce, false⟩ chunks).nonces).map leVal =
      (List.range (2 * ((chunks.map splitPayload).flatten).length)).map
        (fun i => i % 256 ^ 12) := by
  have h1 : (encRun C ⟨key, salt, zeroNonce, false⟩ chunks).nonces =
      nonceSeq zeroNonce ((chunks.map splitPayload).flatten).length := by
    cases chunks with
    | nil => simp [encRun, nonceSeq]
    | cons c cs => rw [encRun_eq]
  refine ⟨by rw [h1, nonceSeq_eq_map], ?_⟩
  rw [h1, nonceSeq_eq_map, List.map_map]
  apply List.map_congr_left
  intro i hi
  simp only [Function.comp_apply]
  exact leVal_iterate_increase i

/-- C4: an input chunk of `n > 0` bytes is split into exactly
`ceil(n / 16383)` frames; the declared payload lengths are `16383` for every
frame but the last, which declares `n − 16383·(ceil(n/16383)−1)`; the
concatenation of the frame payloads is the input chunk; and a 40000-byte
chunk gives exactly the declared lengths `16383, 16383, 7234`. -/
theorem c4_frame_split (C : Crypto) (key nonce chunk : List Nat)
    (h : 0 < chunk.length) :
    (encFrames C key nonce chunk).out =
        framesBytes C key nonce (splitPayload chunk) ∧
    (splitPayload chunk).length = (chunk.length + MAX_PAYLOAD - 1) / MAX_PAYLOAD ∧
    (splitPayload chunk).map List.length =
      List.replicate ((chunk.length + MAX_PAYLOAD - 1) / MAX_PAYLOAD - 1) MAX_PAYLOAD ++
        [chunk.length -
          MAX_PAYLOAD * ((chunk.length + MAX_PAYLOAD - 1) / MAX_PAYLOAD - 1)] ∧
    (splitPayload chunk).flatten = chunk ∧
    (chunk.length = 40000 →
      (splitPayload chunk).map List.length = [16383, 16383, 7234]) := by
  have hnil : chunk ≠ [] := by
    intro hz; rw [hz] at h; simp at h
  have hcount := splitPayload_count chunk
  have hmap := splitPayload_map_length chunk hnil
  refine ⟨by rw [encFrames_eq], hcount, by rw [hmap, hcount], splitPayload_flatten chunk, ?_⟩
  intro h40
  rw [hmap, hcount, h40]
  have h3 : (40000 + MAX_PAYLOAD - 1) / MAX_PAYLOAD = 3 := by decide
  rw [h3]
  simp only [MAX_PAYLOAD]
  rfl

/-- Witness for C4 at a concrete 40000-byte chunk. -/
theorem c4_frame_split_witness :
    0 < (List.replicate 40000 (0 : Nat)).length ∧
    (splitPayload (List.replicate 40000 (0 : Nat))).map List.length =
      [16383, 16383, 7234] :=
  ⟨by rw [List.length_replicate]; omega,
   (c4_frame_split cZero [] zeroNonce (List.replicate 40000 (0 : Nat))
      (by rw [List.length_replicate]; omega)).2.2.2.2
    (List.length_replicate 40000 0)⟩

/-! ## Decryptor loop: how each section consumes bytes, fuel irrelevance -/

theorem sec12_pass (C : Crypto) (st : DecState) (chunk : List Nat)
    (h : ¬(st.state = 1 ∨ st.state = 2)) :
    sec12 C st chunk = .inr (st, chunk) := by
  unfold sec12
  rw [if_neg h]

theorem sec12_short (C : Crypto) (st : DecState) (chunk : List Nat)
    (hst : st.state = 1 ∨ st.state = 2) (h : chunk.length < 18) :
    sec12 C st chunk =
      .inl ⟨[], { st with state := 2, buf := chunk }, none⟩ := by
  unfold sec12
  rw [if_pos hst, if_pos h]

theorem sec12_authfail (C : Crypto) (st : DecState) (chunk : List Nat)
    (hst : st.state = 1 ∨ st.state = 2) (h18 : ¬chunk.length < 18)
    (htag : ¬(chunk.drop 2).take 16 = C.tagOf st.key st.nonce (chunk.take 2)) :
    sec12 C st chunk =
      .inl ⟨[], { st with state := 2 }, some "unable to authenticate data"⟩ := by
  unfold sec12
  rw [if_pos hst, if_neg h18, if_neg htag]

theorem sec12_badlen (C : Crypto) (st : DecState) (chunk : List Nat)
    (hst : st.state = 1 ∨ st.state = 2) (h18 : ¬chunk.length < 18)
    (htag : (chunk.drop 2).take 16 = C.tagOf st.key st.nonce (chunk.take 2))
    (hmax : MAX_PAYLOAD < readUInt16BE (sealBytes C st.key st.nonce 0 (chunk.take 2))) :
    sec12 C st chunk =
      .inl ⟨[], { st with
                    state := 2
                    nonce := increase st.nonce
                    payloadLen := readUInt16BE (sealBytes C st.key st.nonce 0 (chunk.take 2)) },
            some "invalid payload len"⟩ := by
  unfold sec12
  rw [if_pos hst, if_neg h18, if_pos htag, if_pos hmax]

theorem sec12_cell (C : Crypto) (st : DecState) (chunk : List Nat)
    (hst : st.state = 1 ∨ st.state = 2) (h18 : ¬chunk.length < 18)
    (htag : (chunk.drop 2).take 16 = C.tagOf st.key st.nonce (chunk.take 2))
    (hmax : ¬MAX_PAYLOAD < readUInt16BE (sealBytes C st.key st.nonce 0 (chunk.take 2))) :
    sec12 C st chunk =
      if chunk.length = 18 then
        .inl ⟨[], { st with
                      state := 3
                      nonce := increase st.nonce
                      payloadLen := readUInt16BE (sealBytes C st.key st.nonce 0 (chunk.take 2)) },
              none⟩
      else
        .inr ({ st with
                  state := 3
                  nonce := increase st.nonce
                  payloadLen := readUInt16BE (sealBytes C st.key st.nonce 0 (chunk.take 2)) },
              chunk.drop 18) := by
  unfold sec12
  rw [if_pos hst, if_neg h18, if_pos htag, if_neg hmax]

theorem sec3_pass (C : Crypto) (st : DecState) (chunk : List Nat)
    (h : ¬st.state = 3) :
    sec3 C st chunk = .inr (st, chunk, []) := by
  unfold sec3
  rw [if_neg h]

theorem sec3_mid (C : Crypto) (st : DecState) (chunk : List Nat)
    (h3 : st.state = 3)
    (hlt : chunk.length + st.handledPayloadLen < st.payloadLen) :
    sec3 C st chunk =
      .inl ⟨sealBytes C st.key st.nonce st.handledPayloadLen chunk,
            { st with
                cipherAcc := some (st.cipherAcc.getD [] ++ chunk)
                handledPayloadLen := st.handledPayloadLen + chunk.length },
            none⟩ := by
  unfold sec3
  rw [if_pos h3, if_pos hlt]

theorem sec3_full (C : Crypto) (st : DecState) (chunk : List Nat)
    (h3 : st.state = 3)
    (hge : ¬chunk.length + st.handledPayloadLen < st.payloadLen) :
    sec3 C st chunk =
      if st.payloadLen - st.handledPayloadLen = chunk.length then
        .inl ⟨sealBytes C st.key st.nonce st.handledPayloadLen
                (chunk.take (st.payloadLen - st.handledPayloadLen)),
              { st with
                  state := 4
                  cipherAcc := some (st.cipherAcc.getD [] ++
                    chunk.take (st.payloadLen - st.handledPayloadLen))
                  handledPayloadLen := st.payloadLen },
              none⟩
      else
        .inr ({ st with
                  state := 4
                  cipherAcc := some (st.cipherAcc.getD [] ++
                    chunk.take (st.payloadLen - st.handledPayloadLen))
                  handledPayloadLen := st.payloadLen },
              chunk.drop (st.payloadLen - st.handledPayloadLen),
              sealBytes C st.key st.nonce st.handledPayloadLen
                (chunk.take (st.payloadLen - st.handledPayloadLen))) := by
  unfold sec3
  rw [if_pos h3, if_neg hge]

theorem sec4_short (C : Crypto) (st : DecState) (chunk : List Nat)
    (h : chunk.length < 16) :
    sec4 C st chunk = .inl ⟨[], { st with buf := chunk }, none⟩ := by
  unfold sec4
  rw [if_pos h]

theorem sec4_authfail (C : Crypto) (st : DecState) (chunk : List Nat)
    (h16 : ¬chunk.length < 16)
    (htag : ¬chunk.take 16 = C.tagOf st.key st.nonce (st.cipherAcc.getD [])) :
    sec4 C st chunk = .inl ⟨[], st, some "unable to authenticate data"⟩ := by
  unfold sec4
  rw [if_neg h16, if_neg htag]

theorem sec4_ok (C : Crypto) (st : DecState) (chunk : List Nat)
    (h16 : ¬chunk.length < 16)
    (htag : chunk.take 16 = C.tagOf st.key st.nonce (st.cipherAcc.getD [])) :
    sec4 C st chunk =
      if chunk.length = 16 then
        .inl ⟨[], { st with
                      nonce := increase st.nonce
                      cipherAcc := none
                      state := 1
                      payloadLen := 0
                      handledPayloadLen := 0 }, none⟩
      else
        .inr ({ st with
                  nonce := increase st.nonce
                  cipherAcc := none
                  state := 1
                  payloadLen := 0
                  handledPayloadLen := 0 },
              chunk.drop 16) := by
  unfold sec4
  rw [if_neg h16, if_pos htag]

theorem sec12_inr_le (C : Crypto) (st : DecState) (chunk : List Nat)
    (st1 : DecState) (c1 : List Nat) (h : sec12 C st chunk = .inr (st1, c1)) :
    c1.length ≤ chunk.length := by
  by_cases hst : st.state = 1 ∨ st.state = 2
  · by_cases h18 : chunk.length < 18
    · rw [sec12_short C st chunk hst h18] at h
      exact Sum.noConfusion h
    · by_cases htag : (chunk.drop 2).take 16 = C.tagOf st.key st.nonce (chunk.take 2)
      · by_cases hmax : MAX_PAYLOAD <
            readUInt16BE (sealBytes C st.key st.nonce 0 (chunk.take 2))
        · rw [sec12_badlen C st chunk hst h18 htag hmax] at h
          exact Sum.noConfusion h
        · rw [sec12_cell C st chunk hst h18 htag hmax] at h
          by_cases hl : chunk.length = 18
          · rw [if_pos hl] at h
            exact Sum.noConfusion h
          · rw [if_neg hl] at h
            simp only [Sum.inr.injEq, Prod.mk.injEq] at h
            obtain ⟨h1, h2⟩ := h
            subst h2
            simp only [List.length_drop]
            omega
      · rw [sec12_authfail C st chunk hst h18 htag] at h
        exact Sum.noConfusion h
  · rw [sec12_pass C st chunk hst] at h
    simp only [Sum.inr.injEq, Prod.mk.injEq] at h
    obtain ⟨h1, h2⟩ := h
    subst h2
    exact le_rfl

theorem sec3_inr_le (C : Crypto) (st : DecState) (chunk : List Nat)
    (st1 : DecState) (c1 out1 : List Nat)
    (h : sec3 C st chunk = .inr (st1, c1, out1)) :
    c1.length ≤ chunk.length := by
  by_cases h3 : st.state = 3
  · by_cases hlt : chunk.length + st.handledPayloadLen < st.payloadLen
    · rw [sec3_mid C st chunk h3 hlt] at h
      exact Sum.noConfusion h
    · rw [sec3_full C st chunk h3 hlt] at h
      by_cases hl : st.payloadLen - st.handledPayloadLen = chunk.length
      · rw [if_pos hl] at h
        exact Sum.noConfusion h
      · rw [if_neg hl] at h
        simp only [Sum.inr.injEq, Prod.mk.injEq] at h
        obtain ⟨h1, h2, h3⟩ := h
        subst h2
        simp only [List.length_drop]
        omega
  · rw [sec3_pass C st chunk h3] at h
    simp only [Sum.inr.injEq, Prod.mk.injEq] at h
    obtain ⟨h1, h2, h3⟩ := h
    subst h2
    exact le_rfl

theorem sec4_inr_lt (C : Crypto) (st : DecState) (chunk : List Nat)
    (st1 : DecState) (c1 : List Nat) (h : sec4 C st chunk = .inr (st1, c1)) :
    c1.length < chunk.length := by
  by_cases h16 : chunk.length < 16
  · rw [sec4_short C st chunk h16] at h
    exact Sum.noConfusion h
  · by_cases htag : chunk.take 16 = C.tagOf st.key st.nonce (st.cipherAcc.getD [])
    · rw [sec4_ok C st chunk h16 htag] at h
      by_cases hl : chunk.length = 16
      · rw [if_pos hl] at h
        exact Sum.noConfusion h
      · rw [if_neg hl] at h
        simp only [Sum.inr.injEq, Prod.mk.injEq] at h
        obtain ⟨h1, h2⟩ := h
        subst h2
        simp only [List.length_drop]
        omega
    · rw [sec4_authfail C st chunk h16 htag] at h
      exact Sum.noConfusion h

/-! Branch evaluation lemmas for one pass of the loop body. -/

theorem decLoopF_12inl (C : Crypto) (f : Nat) (st : DecState) (chunk : List Nat)
    (r : DecResult) (h : sec12 C st chunk = .inl r) :
    decLoopF C (f + 1) st chunk = r := by
  rw [decLoopF, h]

theorem decLoopF_3inl (C : Crypto) (f : Nat) (st : DecState) (chunk : List Nat)
    (st1 : DecState) (c1 : List Nat) (r : DecResult)
    (h12 : sec12 C st chunk = .inr (st1, c1)) (h3 : sec3 C st1 c1 = .inl r) :
    decLoopF C (f + 1) st chunk = r := by
  rw [decLoopF, h12]
  dsimp only
  rw [h3]

theorem decLoopF_4inl (C : Crypto) (f : Nat) (st : DecState) (chunk : List Nat)
    (st1 st2 : DecState) (c1 c2 o : List Nat) (r : DecResult)
    (h12 : sec12 C st chunk = .inr (st1, c1))
    (h3 : sec3 C st1 c1 = .inr (st2, c2, o)) (h4 : sec4 C st2 c2 = .inl r) :
    decLoopF C (f + 1) st chunk = { r with out := o ++ r.out } := by
  rw [decLoopF, h12]
  dsimp only
  rw [h3]
  dsimp only
  rw [h4]

theorem decLoopF_4inr (C : Crypto) (f : Nat) (st : DecState) (chunk : List Nat)
    (st1 st2 st3 : DecState) (c1 c2 c3 o : List Nat)
    (h12 : sec12 C st chunk = .inr (st1, c1))
    (h3 : sec3 C st1 c1 = .inr (st2, c2, o)) (h4 : sec4 C st2 c2 = .inr (st3, c3)) :
    decLoopF C (f + 1) st chunk =
      { decLoopF C f st3 c3 with
          out := o ++ (decLoopF C f st3 c3).out } := by
  rw [decLoopF, h12]
  dsimp only
  rw [h3]
  dsimp only
  rw [h4]

/-- The result of the frame loop does not depend on the fuel, whenever the
fuel exceeds the chunk length. -/
theorem decLoopF_fuel (C : Crypto) :
    ∀ (n f1 f2 : Nat) (st : DecState) (chunk : List Nat),
      chunk.length ≤ n → chunk.length < f1 → chunk.length < f2 →
      decLoopF C f1 st chunk = decLoopF C f2 st chunk := by
  intro n
  induction n using Nat.strong_induction_on with
  | _ n ih =>
  intro f1 f2 st chunk hn h1 h2
  obtain ⟨a, rfl⟩ : ∃ a, f1 = a + 1 := ⟨f1 - 1, by omega⟩
  obtain ⟨b, rfl⟩ : ∃ b, f2 = b + 1 := ⟨f2 - 1, by omega⟩
  rcases hs12 : sec12 C st chunk with r | ⟨st1, c1⟩
  · rw [decLoopF_12inl C a st chunk r hs12, decLoopF_12inl C b st chunk r hs12]
  · have hl1 := sec12_inr_le C st chunk st1 c1 hs12
    rcases hs3 : sec3 C st1 c1 with r | ⟨st2, c2, o⟩
    · rw [decLoopF_3inl C a st chunk st1 c1 r hs12 hs3,
        decLoopF_3inl C b st chunk st1 c1 r hs12 hs3]
    · have hl2 := sec3_inr_le C st1 c1 st2 c2 o hs3
      rcases hs4 : sec4 C st2 c2 with r | ⟨st3, c3⟩
      · rw [decLoopF_4inl C a st chunk st1 st2 c1 c2 o r hs12 hs3 hs4,
          decLoopF_4inl C b st chunk st1 st2 c1 c2 o r hs12 hs3 hs4]
      · have hl3 := sec4_inr_lt C st2 c2 st3 c3 hs4
        rw [decLoopF_4inr C a st chunk st1 st2 st3 c1 c2 c3 o hs12 hs3 hs4,
          decLoopF_4inr C b st chunk st1 st2 st3 c1 c2 c3 o hs12 hs3 hs4,
          ih c3.length (by omega) a b st3 c3 le_rfl (by omega) (by omega)]

/-! ## Decoding a well-formed frame stream -/

theorem readUInt16BE_writeUInt16BE (n : Nat) (h : n < 65536) :
    readUInt16BE (writeUInt16BE n) = n := by
  simp only [readUInt16BE, writeUInt16BE]
  simp only [List.headD, List.drop]
  omega

theorem mkFrame_length (C : Crypto) (hTag : ∀ k n c, (C.tagOf k n c).length = 16)
    (key nonce p : List Nat) :
    (mkFrame C key nonce p).length = 34 + p.length := by
  simp [mkFrame, hTag, writeUInt16BE]
  omega

/-- Feeding one complete frame (and anything after it) to the loop from a
frame boundary: the payload comes out, the state resets, and the loop goes
on with the remainder. -/
theorem decLoop_frame (C : Crypto) (hTag : ∀ k n c, (C.tagOf k n c).length = 16)
    (f : Nat) (st : DecState) (p rest : List Nat)
    (hst : st.state = 1 ∨ st.state = 2)
    (hacc : st.cipherAcc = none)
    (hhand : st.handledPayloadLen = 0)
    (hp2 : p.length ≤ MAX_PAYLOAD)
    (hf : (mkFrame C st.key st.nonce p ++ rest).length < f) :
    decLoopF C f st (mkFrame C st.key st.nonce p ++ rest) =
      if rest = [] then ⟨p, resetSt st, none⟩
      else { decLoopF C (rest.length + 1) (resetSt st) rest with
             out := p ++ (decLoopF C (rest.length + 1) (resetSt st) rest).out } := by
  obtain ⟨a, rfl⟩ : ∃ a, f = a + 1 := ⟨f - 1, by omega⟩
  have hc1 : (sealBytes C st.key st.nonce 0 (writeUInt16BE p.length)).length = 2 := by
    simp [writeUInt16BE]
  have ht1 : (C.tagOf st.key st.nonce
      (sealBytes C st.key st.nonce 0 (writeUInt16BE p.length))).length = 16 := hTag _ _ _
  have hc2 : (sealBytes C st.key (increase st.nonce) 0 p).length = p.length := by simp
  have ht2 : (C.tagOf st.key (increase st.nonce)
      (sealBytes C st.key (increase st.nonce) 0 p)).length = 16 := hTag _ _ _
  -- abbreviations
  generalize hg1 : sealBytes C st.key st.nonce 0 (writeUInt16BE p.length) = c1 at *
  generalize hg2 : C.tagOf st.key st.nonce c1 = t1 at *
  generalize hg3 : sealBytes C st.key (increase st.nonce) 0 p = c2 at *
  generalize hg4 : C.tagOf st.key (increase st.nonce) c2 = t2 at *
  have hshape : mkFrame C st.key st.nonce p ++ rest =
      c1 ++ (t1 ++ (c2 ++ (t2 ++ rest))) := by
    simp only [mkFrame, hg1, hg2, hg3, hg4, List.append_assoc]
  rw [hshape] at hf ⊢
  have hlen : (c1 ++ (t1 ++ (c2 ++ (t2 ++ rest)))).length =
      34 + p.length + rest.length := by
    simp [hc1, ht1, hc2, ht2]
    omega
  -- section 1/2: the length cell
  have htake2 : (c1 ++ (t1 ++ (c2 ++ (t2 ++ rest)))).take 2 = c1 :=
    List.take_left' hc1
  have hdrop2 : (c1 ++ (t1 ++ (c2 ++ (t2 ++ rest)))).drop 2 =
      t1 ++ (c2 ++ (t2 ++ rest)) := List.drop_left' hc1
  have htag1 : ((c1 ++ (t1 ++ (c2 ++ (t2 ++ rest)))).drop 2).take 16 =
      C.tagOf st.key st.nonce ((c1 ++ (t1 ++ (c2 ++ (t2 ++ rest)))).take 2) := by
    rw [htake2, hdrop2, List.take_left' ht1, hg2]
  have hread : readUInt16BE (sealBytes C st.key st.nonce 0
      ((c1 ++ (t1 ++ (c2 ++ (t2 ++ rest)))).take 2)) = p.length := by
    rw [htake2, ← hg1, sealBytes_sealBytes]
    exact readUInt16BE_writeUInt16BE p.length
      (by simp only [MAX_PAYLOAD] at hp2; omega)
  have h18 : ¬(c1 ++ (t1 ++ (c2 ++ (t2 ++ rest)))).length < 18 := by
    rw [hlen]; omega
  have hne18 : ¬(c1 ++ (t1 ++ (c2 ++ (t2 ++ rest)))).length = 18 := by
    rw [hlen]; omega
  have hmax : ¬MAX_PAYLOAD < readUInt16BE (sealBytes C st.key st.nonce 0
      ((c1 ++ (t1 ++ (c2 ++ (t2 ++ rest)))).take 2)) := by
    rw [hread]; omega
  have hdrop18 : (c1 ++ (t1 ++ (c2 ++ (t2 ++ rest)))).drop 18 =
      c2 ++ (t2 ++ rest) := by
    rw [show c1 ++ (t1 ++ (c2 ++ (t2 ++ rest))) =
      (c1 ++ t1) ++ (c2 ++ (t2 ++ rest)) from (List.append_assoc _ _ _).symm]
    exact List.drop_left' (by rw [List.length_append, hc1, ht1])
  have h12 := sec12_cell C st (c1 ++ (t1 ++ (c2 ++ (t2 ++ rest)))) hst h18 htag1 hmax
  rw [if_neg hne18, hread, hdrop18] at h12
  -- section 3: the whole payload is present
  set st1 : DecState := { st with
      state := 3
      nonce := increase st.nonce
      payloadLen := p.length } with hst1
  have hkey1 : st1.key = st.key := rfl
  have hnonce1 : st1.nonce = increase st.nonce := rfl
  have hhand1 : st1.handledPayloadLen = 0 := hhand
  have hacc1 : st1.cipherAcc = none := hacc
  have hge : ¬(c2 ++ (t2 ++ rest)).length + st1.handledPayloadLen < st1.payloadLen := by
    rw [hhand1]
    simp [hc2, ht2]
  have h3 := sec3_full C st1 (c2 ++ (t2 ++ rest)) rfl hge
  rw [hhand1, hacc1] at h3
  simp only [Nat.sub_zero, Option.getD_none, List.nil_append] at h3
  have hdec2 : sealBytes C st.key (increase st.nonce) 0 c2 = p := by
    rw [← hg3, sealBytes_sealBytes]
  rw [List.take_left' hc2, List.drop_left' hc2, hdec2] at h3
  have hne3 : ¬p.length = (c2 ++ (t2 ++ rest)).length := by
    simp [hc2, ht2]
  rw [if_neg hne3] at h3
  -- section 4: the payload tag
  set st2 : DecState := { st1 with
      state := 4
      cipherAcc := some c2
      handledPayloadLen := st1.payloadLen } with hst2
  have h16 : ¬(t2 ++ rest).length < 16 := by simp [ht2]
  have htag2 : (t2 ++ rest).take 16 =
      C.tagOf st2.key st2.nonce (st2.cipherAcc.getD []) := by
    rw [List.take_left' ht2]
    exact hg4.symm
  have h4 := sec4_ok C st2 (t2 ++ rest) h16 htag2
  by_cases hrest : rest = []
  · subst hrest
    rw [if_pos (by simp [ht2])] at h4
    rw [if_pos rfl]
    rw [decLoopF_4inl C a st _ st1 st2 _ _ p _ h12 h3 h4]
    simp [resetSt, hst2, hst1]
  · have h16ne : ¬(t2 ++ rest).length = 16 := by
      simp only [List.length_append, ht2]
      have : rest.length ≠ 0 := fun hz => hrest (List.eq_nil_of_length_eq_zero hz)
      omega
    rw [if_neg h16ne, List.drop_left' ht2] at h4
    rw [if_neg hrest]
    rw [decLoopF_4inr C a st _ st1 st2 _ _ _ rest p h12 h3 h4]
    have hfuel : decLoopF C a
        { st2 with
            nonce := increase st2.nonce
            cipherAcc := none
            state := 1
            payloadLen := 0
            handledPayloadLen := 0 } rest =
        decLoopF C (rest.length + 1) (resetSt st) rest := by
      have hsame : ({ st2 with
          nonce := increase st2.nonce
          cipherAcc := none
          state := 1
          payloadLen := 0
          handledPayloadLen := 0 } : DecState) = resetSt st := by
        simp [resetSt, hst2, hst1]
      rw [hsame]
      exact decLoopF_fuel C rest.length a (rest.length + 1) (resetSt st) rest
        le_rfl (by rw [hlen] at hf; omega) (by omega)
    rw [hfuel]

theorem framesBytes_ne_nil (C : Crypto) (hTag : ∀ k n c, (C.tagOf k n c).length = 16)
    (key nonce : List Nat) (ps : List (List Nat)) (h : ps ≠ []) :
    framesBytes C key nonce ps ≠ [] := by
  cases ps with
  | nil => exact absurd rfl h
  | cons p tail =>
      intro hq
      have := congrArg List.length hq
      rw [show framesBytes C key nonce (p :: tail) =
        mkFrame C key nonce p ++ framesBytes C key (increase (increase nonce)) tail
        from rfl, List.length_append, mkFrame_length C hTag] at this
      simp at this

/-- Feeding a whole well-formed frame stream from a frame boundary: all
payloads come out in order, no error, and the state is back at a boundary
with the nonce advanced twice per frame. -/
theorem decLoop_frames (C : Crypto) (hTag : ∀ k n c, (C.tagOf k n c).length = 16) :
    ∀ (ps : List (List Nat)) (f : Nat) (st : DecState),
      st.state = 1 ∨ st.state = 2 → st.cipherAcc = none →
      st.handledPayloadLen = 0 →
      (∀ p ∈ ps, p.length ≤ MAX_PAYLOAD) → ps ≠ [] →
      (framesBytes C st.key st.nonce ps).length < f →
      decLoopF C f st (framesBytes C st.key st.nonce ps) =
        ⟨ps.flatten, resetIter st ps.length, none⟩ := by
  intro ps
  induction ps with
  | nil => intro f st _ _ _ _ hne _; exact absurd rfl hne
  | cons p tail ih =>
      intro f st hst hacc hhand hps hne hf
      have hfb : framesBytes C st.key st.nonce (p :: tail) =
          mkFrame C st.key st.nonce p ++
            framesBytes C st.key (increase (increase st.nonce)) tail := rfl
      rw [hfb] at hf ⊢
      rw [decLoop_frame C hTag f st p _ hst hacc hhand (hps p (by simp)) hf]
      cases tail with
      | nil =>
          rw [if_pos (show framesBytes C st.key (increase (increase st.nonce)) [] = []
            from rfl)]
          simp only [List.flatten_cons, List.flatten_nil, List.append_nil,
            List.length_cons, List.length_nil]
          have hrs : resetIter st (0 + 1) = resetSt st := by
            simp only [resetSt, resetIter]
            rw [show 2 * (0 + 1) = 2 from rfl, iterate_two]
          rw [hrs]
      | cons q tail2 =>
          have hne2 : framesBytes C st.key (increase (increase st.nonce))
              (q :: tail2) ≠ [] :=
            framesBytes_ne_nil C hTag _ _ _ (by simp)
          rw [if_neg hne2]
          have hkey : (resetSt st).key = st.key := rfl
          have hnon : (resetSt st).nonce = increase (increase st.nonce) := rfl
          have ihinst := ih
            ((framesBytes C st.key (increase (increase st.nonce)) (q :: tail2)).length + 1)
            (resetSt st) (Or.inl rfl) rfl rfl
            (fun x hx => hps x (by simp [hx]))
            (by simp)
            (by rw [hkey, hnon]; omega)
          rw [hkey, hnon] at ihinst
          rw [ihinst]
          have hnn : increase^[2 * (q :: tail2).length] (increase (increase st.nonce)) =
              increase^[2 * ((q :: tail2).length + 1)] st.nonce := by
            rw [show 2 * ((q :: tail2).length + 1) = 2 * (q :: tail2).length + 2
              from by ring, Function.iterate_add_apply, iterate_two]
          show (⟨p ++ (q :: tail2).flatten,
              resetIter (resetSt st) (q :: tail2).length, none⟩ : DecResult) =
            ⟨(p :: q :: tail2).flatten, resetIter st (p :: q :: tail2).length, none⟩
          rw [show (p :: q :: tail2).flatten = p ++ (q :: tail2).flatten from rfl]
          have hri : resetIter (resetSt st) (q :: tail2).length =
              resetIter st (p :: q :: tail2).length := by
            simp only [resetIter, resetSt, List.length_cons]
            rw [show 2 * (tail2.length + 1 + 1) = 2 * (tail2.length + 1) + 2
              from by ring, Function.iterate_add_apply, iterate_two]
          rw [hri]

/-- Resuming in state 3 (mid payload, `j` bytes already decrypted): the rest
of the payload comes out, the tag verifies, and the loop goes on. -/
theorem decLoop_resume3 (C : Crypto) (hTag : ∀ k n c, (C.tagOf k n c).length = 16)
    (f : Nat) (st : DecState) (p rest : List Nat) (j : Nat)
    (hst3 : st.state = 3)
    (hpay : st.payloadLen = p.length)
    (hhand : st.handledPayloadLen = j)
    (hj : j ≤ p.length)
    (hacc : st.cipherAcc.getD [] = (sealBytes C st.key st.nonce 0 p).take j)
    (hf : ((sealBytes C st.key st.nonce 0 p).drop j ++
      (C.tagOf st.key st.nonce (sealBytes C st.key st.nonce 0 p) ++ rest)).length < f) :
    decLoopF C f st ((sealBytes C st.key st.nonce 0 p).drop j ++
        (C.tagOf st.key st.nonce (sealBytes C st.key st.nonce 0 p) ++ rest)) =
      if rest = [] then ⟨p.drop j, reset1 st, none⟩
      else { decLoopF C (rest.length + 1) (reset1 st) rest with
             out := p.drop j ++ (decLoopF C (rest.length + 1) (reset1 st) rest).out } := by
  obtain ⟨a, rfl⟩ : ∃ a, f = a + 1 := ⟨f - 1, by omega⟩
  have hc2 : (sealBytes C st.key st.nonce 0 p).length = p.length := by simp
  have ht2 : (C.tagOf st.key st.nonce (sealBytes C st.key st.nonce 0 p)).length = 16 :=
    hTag _ _ _
  have hdecd : sealBytes C st.key st.nonce j
      ((sealBytes C st.key st.nonce 0 p).drop j) = p.drop j := by
    have hd := sealBytes_drop C st.key st.nonce 0 j (sealBytes C st.key st.nonce 0 p)
    rw [Nat.zero_add] at hd
    rw [hd, sealBytes_sealBytes]
  generalize hg3 : sealBytes C st.key st.nonce 0 p = c2 at *
  generalize hg4 : C.tagOf st.key st.nonce c2 = t2 at *
  have hdropj : (c2.drop j).length = p.length - j := by rw [List.length_drop, hc2]
  have h12 : sec12 C st (c2.drop j ++ (t2 ++ rest)) =
      .inr (st, c2.drop j ++ (t2 ++ rest)) := by
    apply sec12_pass
    rw [hst3]
    omega
  have hge : ¬(c2.drop j ++ (t2 ++ rest)).length + st.handledPayloadLen <
      st.payloadLen := by
    rw [hhand, hpay]
    simp only [List.length_append, hdropj, ht2]
    omega
  have h3 := sec3_full C st (c2.drop j ++ (t2 ++ rest)) hst3 hge
  rw [hpay, hhand] at h3
  rw [List.take_left' (by rw [hdropj]), List.drop_left' (by rw [hdropj]), hdecd,
    hacc, List.take_append_drop] at h3
  have hne3 : ¬p.length - j = (c2.drop j ++ (t2 ++ rest)).length := by
    simp only [List.length_append, hdropj, ht2]
    omega
  rw [if_neg hne3] at h3
  have h16 : ¬(t2 ++ rest).length < 16 := by simp [ht2]
  have htag2 : (t2 ++ rest).take 16 = C.tagOf st.key st.nonce c2 := by
    rw [List.take_left' ht2]
    exact hg4.symm
  have h4 := sec4_ok C { st with
      state := 4
      payloadLen := p.length
      cipherAcc := some c2
      handledPayloadLen := p.length } (t2 ++ rest) h16 htag2
  by_cases hrest : rest = []
  · subst hrest
    rw [if_pos (by simp [ht2])] at h4
    rw [if_pos rfl]
    rw [decLoopF_4inl C a st _ _ _ _ _ (p.drop j) _ h12 h3 h4]
    simp [reset1]
  · have h16ne : ¬(t2 ++ rest).length = 16 := by
      simp only [List.length_append, ht2]
      have : rest.length ≠ 0 := fun hz => hrest (List.eq_nil_of_length_eq_zero hz)
      omega
    rw [if_neg h16ne, List.drop_left' ht2] at h4
    have hsame : ({ { st with
        state := 4
        payloadLen := p.length
        cipherAcc := some c2
        handledPayloadLen := p.length } with
        nonce := increase ({ st with
          state := 4
          payloadLen := p.length
          cipherAcc := some c2
          handledPayloadLen := p.length } : DecState).nonce
        cipherAcc := none
        state := 1
        payloadLen := 0
        handledPayloadLen := 0 } : DecState) = reset1 st := rfl
    rw [hsame] at h4
    rw [if_neg hrest]
    rw [decLoopF_4inr C a st _ _ _ _ _ _ rest (p.drop j) h12 h3 h4]
    rw [decLoopF_fuel C rest.length a (rest.length + 1) (reset1 st) rest le_rfl
      (by simp only [List.length_append, hdropj, ht2] at hf; omega) (by omega)]

/-- Resuming in state 4 (payload done, waiting for its tag): the tag
verifies and the loop goes on. -/
theorem decLoop_resume4 (C : Crypto) (hTag : ∀ k n c, (C.tagOf k n c).length = 16)
    (f : Nat) (st : DecState) (rest c2 : List Nat)
    (hst4 : st.state = 4)
    (hacc : st.cipherAcc = some c2)
    (hf : (C.tagOf st.key st.nonce c2 ++ rest).length < f) :
    decLoopF C f st (C.tagOf st.key st.nonce c2 ++ rest) =
      if rest = [] then ⟨[], reset1 st, none⟩
      else decLoopF C (rest.length + 1) (reset1 st) rest := by
  obtain ⟨a, rfl⟩ : ∃ a, f = a + 1 := ⟨f - 1, by omega⟩
  have ht2 : (C.tagOf st.key st.nonce c2).length = 16 := hTag _ _ _
  generalize hg4 : C.tagOf st.key st.nonce c2 = t2 at *
  have h12 : sec12 C st (t2 ++ rest) = .inr (st, t2 ++ rest) := by
    apply sec12_pass
    rw [hst4]
    omega
  have h3 : sec3 C st (t2 ++ rest) = .inr (st, t2 ++ rest, []) := by
    apply sec3_pass
    rw [hst4]
    omega
  have h16 : ¬(t2 ++ rest).length < 16 := by simp [ht2]
  have htag2 : (t2 ++ rest).take 16 =
      C.tagOf st.key st.nonce (st.cipherAcc.getD []) := by
    rw [List.take_left' ht2, hacc]
    exact hg4.symm
  have h4 := sec4_ok C st (t2 ++ rest) h16 htag2
  by_cases hrest : rest = []
  · subst hrest
    rw [if_pos (by simp [ht2])] at h4
    rw [if_pos rfl]
    rw [decLoopF_4inl C a st _ st st _ _ [] _ h12 h3 h4]
    rfl
  · have h16ne : ¬(t2 ++ rest).length = 16 := by
      simp only [List.length_append, ht2]
      have : rest.length ≠ 0 := fun hz => hrest (List.eq_nil_of_length_eq_zero hz)
      omega
    rw [if_neg h16ne, List.drop_left' ht2] at h4
    have hsame : ({ st with
        nonce := increase st.nonce
        cipherAcc := none
        state := 1
        payloadLen := 0
        handledPayloadLen := 0 } : DecState) = reset1 st := rfl
    rw [hsame] at h4
    rw [if_neg hrest]
    rw [decLoopF_4inr C a st _ st st (reset1 st) _ _ rest [] h12 h3 h4]
    rw [decLoopF_fuel C rest.length a (rest.length + 1) (reset1 st) rest le_rfl
      (by simp only [List.length_append, ht2] at hf; omega) (by omega)]
    rfl

/-! ## From `Decryptor.update` to the frame loop -/

theorem buf_erase (st : DecState) (h : st.buf = []) :
    ({ st with buf := [] } : DecState) = st := by
  cases st
  simp only at h
  simp [h]

theorem decUpdate_gotSalt (C : Crypto) (st : DecState) (c : List Nat)
    (h : st.isGotSalt = true) :
    decUpdate C st c = decLoop C { st with buf := [] } (st.buf ++ c) := by
  simp only [decUpdate, h, if_true]

theorem decUpdate_clean (C : Crypto) (st : DecState) (c : List Nat)
    (h : st.isGotSalt = true) (hb : st.buf = []) :
    decUpdate C st c = decLoop C st c := by
  rw [decUpdate_gotSalt C st c h, buf_erase st hb, hb, List.nil_append]

theorem decUpdate_saltShort (C : Crypto) (st : DecState) (c : List Nat)
    (h : st.isGotSalt = false) (hb : st.buf = [])
    (hlen : c.length < st.saltLen) :
    decUpdate C st c = ⟨[], { st with buf := [] }, some "invalid salt"⟩ := by
  simp only [decUpdate, h, hb, List.nil_append, Bool.false_eq_true, if_false]
  rw [if_pos hlen]

theorem decUpdate_saltFull (C : Crypto) (st : DecState) (salt more : List Nat)
    (h : st.isGotSalt = false) (hb : st.buf = [])
    (hsl : salt.length = st.saltLen) :
    decUpdate C st (salt ++ more) =
      if more = [] then
        ⟨[], { st with
                 buf := []
                 salt := salt
                 key := C.hkdfF st.mainkey st.keyLen salt
                 isGotSalt := true }, none⟩
      else
        decLoop C { st with
                 buf := []
                 salt := salt
                 key := C.hkdfF st.mainkey st.keyLen salt
                 isGotSalt := true } more := by
  simp only [decUpdate, h, hb, List.nil_append, Bool.false_eq_true, if_false]
  rw [if_neg (by rw [List.length_append, ← hsl]; omega)]
  rw [← hsl, List.take_left, List.drop_left]
  by_cases hm : more = []
  · subst hm
    rw [if_pos (by simp), if_pos rfl]
  · have hml : more.length ≠ 0 := fun hz => hm (List.eq_nil_of_length_eq_zero hz)
    rw [if_neg (by rw [List.length_append]; omega), if_neg hm]

/-! ## Splitting a frame stream into two chunks -/

/-- Cut inside the first 18 bytes of a frame: the first call only buffers the
prefix, the second replays the whole stream from the carry buffer. -/
theorem decSplit_zone1 (C : Crypto) (hTag : ∀ k n c, (C.tagOf k n c).length = 16)
    (st : DecState) (p : List Nat) (tail : List (List Nat)) (q : Nat)
    (hgs : st.isGotSalt = true) (hst : st.state = 1 ∨ st.state = 2)
    (hacc : st.cipherAcc = none) (hhand : st.handledPayloadLen = 0)
    (hbuf : st.buf = []) (hps : ∀ x ∈ p :: tail, x.length ≤ MAX_PAYLOAD)
    (hq : q < 18) :
    (decUpdate C st ((framesBytes C st.key st.nonce (p :: tail)).take q)).err = none ∧
    (decUpdate C (decUpdate C st ((framesBytes C st.key st.nonce (p :: tail)).take q)).st
        ((framesBytes C st.key st.nonce (p :: tail)).drop q)).err = none ∧
    (decUpdate C st ((framesBytes C st.key st.nonce (p :: tail)).take q)).out ++
      (decUpdate C (decUpdate C st ((framesBytes C st.key st.nonce (p :: tail)).take q)).st
        ((framesBytes C st.key st.nonce (p :: tail)).drop q)).out =
      (p :: tail).flatten := by
  have hlt : ((framesBytes C st.key st.nonce (p :: tail)).take q).length < 18 := by
    rw [List.length_take]
    omega
  have hcoll : ({ st with state := 2, buf := [] } : DecState) =
      { st with state := 2 } := by
    rw [hbuf]
  have h2 : decUpdate C ({ st with
        state := 2
        buf := (framesBytes C st.key st.nonce (p :: tail)).take q } : DecState)
      ((framesBytes C st.key st.nonce (p :: tail)).drop q) =
      ⟨(p :: tail).flatten,
       resetIter { st with state := 2 } (p :: tail).length, none⟩ := by
    rw [decUpdate_gotSalt C { st with
        state := 2
        buf := (framesBytes C st.key st.nonce (p :: tail)).take q } _ hgs]
    dsimp only
    rw [List.take_append_drop, hcoll]
    simp only [decLoop]
    have hkey : ({ st with state := 2 } : DecState).key = st.key := rfl
    have hnon : ({ st with state := 2 } : DecState).nonce = st.nonce := rfl
    have hfr := decLoop_frames C hTag (p :: tail)
      ((framesBytes C st.key st.nonce (p :: tail)).length + 1)
      { st with state := 2 } (Or.inr rfl) hacc hhand hps (by simp)
      (by rw [hkey, hnon]; omega)
    rw [hkey, hnon] at hfr
    exact hfr
  rw [decUpdate_clean C st _ hgs hbuf]
  simp only [decLoop]
  rw [decLoopF_12inl C _ st _ _ (sec12_short C st _ hst hlt)]
  dsimp only
  rw [h2]
  exact ⟨rfl, rfl, by simp⟩

/-- Cut inside the payload of the first frame, or exactly after its length
cell: the first call streams out the first `q − 18` payload bytes at once,
the second finishes the frame and replays the rest. -/
theorem decSplit_zone2 (C : Crypto) (hTag : ∀ k n c, (C.tagOf k n c).length = 16)
    (st : DecState) (p : List Nat) (tail : List (List Nat)) (q : Nat)
    (hgs : st.isGotSalt = true) (hst : st.state = 1 ∨ st.state = 2)
    (hacc : st.cipherAcc = none) (hhand : st.handledPayloadLen = 0)
    (hbuf : st.buf = []) (hps : ∀ x ∈ p :: tail, x.length ≤ MAX_PAYLOAD)
    (hq18 : 18 ≤ q) (hqp : q = 18 ∨ q < 18 + p.length) :
    (decUpdate C st ((framesBytes C st.key st.nonce (p :: tail)).take q)).err = none ∧
    (decUpdate C (decUpdate C st ((framesBytes C st.key st.nonce (p :: tail)).take q)).st
        ((framesBytes C st.key st.nonce (p :: tail)).drop q)).err = none ∧
    (decUpdate C st ((framesBytes C st.key st.nonce (p :: tail)).take q)).out ++
      (decUpdate C (decUpdate C st ((framesBytes C st.key st.nonce (p :: tail)).take q)).st
        ((framesBytes C st.key st.nonce (p :: tail)).drop q)).out =
      (p :: tail).flatten := by
  have hpM : p.length ≤ MAX_PAYLOAD := hps p (by simp)
  have hc1 : (sealBytes C st.key st.nonce 0 (writeUInt16BE p.length)).length = 2 := by
    simp [writeUInt16BE]
  have ht1 : (C.tagOf st.key st.nonce
      (sealBytes C st.key st.nonce 0 (writeUInt16BE p.length))).length = 16 := hTag _ _ _
  have hc2 : (sealBytes C st.key (increase st.nonce) 0 p).length = p.length := by simp
  have ht2 : (C.tagOf st.key (increase st.nonce)
      (sealBytes C st.key (increase st.nonce) 0 p)).length = 16 := hTag _ _ _
  generalize hg1 : sealBytes C st.key st.nonce 0 (writeUInt16BE p.length) = c1 at *
  generalize hg2 : C.tagOf st.key st.nonce c1 = t1 at *
  generalize hg3 : sealBytes C st.key (increase st.nonce) 0 p = c2 at *
  generalize hg4 : C.tagOf st.key (increase st.nonce) c2 = t2 at *
  have hFT : framesBytes C st.key st.nonce (p :: tail) =
      c1 ++ (t1 ++ (c2 ++ (t2 ++
        framesBytes C st.key (increase (increase st.nonce)) tail))) := by
    rw [show framesBytes C st.key st.nonce (p :: tail) =
      mkFrame C st.key st.nonce p ++
        framesBytes C st.key (increase (increase st.nonce)) tail from rfl]
    simp only [mkFrame, hg1, hg2, hg3, hg4, List.append_assoc]
  rw [hFT]
  set T := framesBytes C st.key (increase (increase st.nonce)) tail with hT
  obtain ⟨j, rfl⟩ : ∃ j, q = 18 + j := ⟨q - 18, by omega⟩
  have hj : j ≤ p.length := by omega
  have hqe : 18 + j = c1.length + (t1.length + j) := by
    rw [hc1, ht1]
    omega
  have htakeq : (c1 ++ (t1 ++ (c2 ++ (t2 ++ T)))).take (18 + j) =
      c1 ++ (t1 ++ c2.take j) := by
    rw [hqe, List.take_append, List.take_append,
      List.take_append_of_le_length (by rw [hc2]; omega)]
  have hdropq : (c1 ++ (t1 ++ (c2 ++ (t2 ++ T)))).drop (18 + j) =
      c2.drop j ++ (t2 ++ T) := by
    rw [hqe, List.drop_append, List.drop_append,
      List.drop_append_of_le_length (by rw [hc2]; omega)]
  rw [htakeq, hdropq]
  have hlenj : (c2.take j).length = j := by
    rw [List.length_take, hc2]
    omega
  have hlen1 : (c1 ++ (t1 ++ c2.take j)).length = 18 + j := by
    rw [List.length_append, List.length_append, hc1, ht1, hlenj]
    omega
  have htake2 : (c1 ++ (t1 ++ c2.take j)).take 2 = c1 := List.take_left' hc1
  have hdrop2 : (c1 ++ (t1 ++ c2.take j)).drop 2 = t1 ++ c2.take j :=
    List.drop_left' hc1
  have htag1 : ((c1 ++ (t1 ++ c2.take j)).drop 2).take 16 =
      C.tagOf st.key st.nonce ((c1 ++ (t1 ++ c2.take j)).take 2) := by
    rw [htake2, hdrop2, List.take_left' ht1, hg2]
  have hread : readUInt16BE (sealBytes C st.key st.nonce 0
      ((c1 ++ (t1 ++ c2.take j)).take 2)) = p.length := by
    rw [htake2, ← hg1, sealBytes_sealBytes]
    exact readUInt16BE_writeUInt16BE p.length
      (by simp only [MAX_PAYLOAD] at hpM; omega)
  have h18 : ¬(c1 ++ (t1 ++ c2.take j)).length < 18 := by rw [hlen1]; omega
  have hmax : ¬MAX_PAYLOAD < readUInt16BE (sealBytes C st.key st.nonce 0
      ((c1 ++ (t1 ++ c2.take j)).take 2)) := by rw [hread]; omega
  have h12 := sec12_cell C st (c1 ++ (t1 ++ c2.take j)) hst h18 htag1 hmax
  rw [hread] at h12
  set st3 : DecState := { st with
      state := 3
      nonce := increase st.nonce
      payloadLen := p.length } with hst3
  rw [decUpdate_clean C st _ hgs hbuf]
  simp only [decLoop]
  by_cases hj0 : j = 0
  · subst hj0
    rw [if_pos (by rw [hlen1])] at h12
    rw [decLoopF_12inl C _ st _ _ h12]
    dsimp only
    rw [decUpdate_clean C st3 _ hgs hbuf]
    simp only [decLoop]
    have hseal : sealBytes C st3.key st3.nonce 0 p = c2 := hg3
    have htg : C.tagOf st3.key st3.nonce c2 = t2 := hg4
    have hacc3 : st3.cipherAcc.getD [] =
        (sealBytes C st3.key st3.nonce 0 p).take 0 := by
      rw [hseal]
      rw [show st3.cipherAcc = none from hacc]
      simp
    have hfl : ((sealBytes C st3.key st3.nonce 0 p).drop 0 ++
        (C.tagOf st3.key st3.nonce (sealBytes C st3.key st3.nonce 0 p) ++ T)).length <
        (c2.drop 0 ++ (t2 ++ T)).length + 1 := by
      rw [hseal, htg]
      omega
    have hres := decLoop_resume3 C hTag ((c2.drop 0 ++ (t2 ++ T)).length + 1)
      st3 p T 0 rfl rfl hhand (by omega) hacc3 hfl
    rw [hseal, htg] at hres
    rw [hres]
    by_cases htail : tail = []
    · subst htail
      rw [if_pos (show T = [] from rfl)]
      exact ⟨trivial, rfl, by simp⟩
    · have hTne : T ≠ [] := framesBytes_ne_nil C hTag _ _ _ htail
      rw [if_neg hTne]
      have hkey2 : (reset1 st3).key = st.key := rfl
      have hnon2 : (reset1 st3).nonce = increase (increase st.nonce) := rfl
      have hfr := decLoop_frames C hTag tail (T.length + 1) (reset1 st3)
        (Or.inl rfl) rfl rfl (fun x hx => hps x (by simp [hx])) htail
        (by rw [hkey2, hnon2, ← hT]; omega)
      rw [hkey2, hnon2, ← hT] at hfr
      rw [hfr]
      exact ⟨trivial, rfl, by simp⟩
  · have hjlt : j < p.length := by
      rcases hqp with h | h
      · omega
      · omega
    rw [if_neg (by rw [hlen1]; omega)] at h12
    have hdrop18 : (c1 ++ (t1 ++ c2.take j)).drop 18 = c2.take j := by
      rw [show c1 ++ (t1 ++ c2.take j) = (c1 ++ t1) ++ c2.take j from by
        rw [List.append_assoc]]
      exact List.drop_left' (by rw [List.length_append, hc1, ht1])
    rw [hdrop18] at h12
    have hhand3 : st3.handledPayloadLen = 0 := hhand
    have hacc3n : st3.cipherAcc = none := hacc
    have hlt3 : (c2.take j).length + st3.handledPayloadLen < st3.payloadLen := by
      rw [hhand3, hlenj, show st3.payloadLen = p.length from rfl]
      omega
    have h3 := sec3_mid C st3 (c2.take j) rfl hlt3
    rw [hhand3, hacc3n, hlenj] at h3
    have htr : sealBytes C st3.key st3.nonce 0 (c2.take j) = p.take j := by
      rw [show st3.key = st.key from rfl, show st3.nonce = increase st.nonce from rfl,
        ← hg3, ← sealBytes_take, sealBytes_sealBytes]
    rw [htr] at h3
    simp only [Option.getD_none, List.nil_append, Nat.zero_add] at h3
    set st3b : DecState := { st3 with
        cipherAcc := some (c2.take j)
        handledPayloadLen := j } with hst3b
    rw [decLoopF_3inl C _ st _ st3 _ _ h12 h3]
    dsimp only
    rw [decUpdate_clean C st3b _ hgs hbuf]
    simp only [decLoop]
    have hseal : sealBytes C st3b.key st3b.nonce 0 p = c2 := hg3
    have htg : C.tagOf st3b.key st3b.nonce c2 = t2 := hg4
    have hacc3b : st3b.cipherAcc.getD [] =
        (sealBytes C st3b.key st3b.nonce 0 p).take j := by
      rw [hseal]
      rfl
    have hfl : ((sealBytes C st3b.key st3b.nonce 0 p).drop j ++
        (C.tagOf st3b.key st3b.nonce (sealBytes C st3b.key st3b.nonce 0 p) ++ T)).length <
        (c2.drop j ++ (t2 ++ T)).length + 1 := by
      rw [hseal, htg]
      omega
    have hres := decLoop_resume3 C hTag ((c2.drop j ++ (t2 ++ T)).length + 1)
      st3b p T j rfl rfl rfl (by omega) hacc3b hfl
    rw [hseal, htg] at hres
    rw [hres]
    by_cases htail : tail = []
    · subst htail
      rw [if_pos (show T = [] from rfl)]
      refine ⟨trivial, rfl, ?_⟩
      simp
    · have hTne : T ≠ [] := framesBytes_ne_nil C hTag _ _ _ htail
      rw [if_neg hTne]
      have hkey2 : (reset1 st3b).key = st.key := rfl
      have hnon2 : (reset1 st3b).nonce = increase (increase st.nonce) := rfl
      have hfr := decLoop_frames C hTag tail (T.length + 1) (reset1 st3b)
        (Or.inl rfl) rfl rfl (fun x hx => hps x (by simp [hx])) htail
        (by rw [hkey2, hnon2, ← hT]; omega)
      rw [hkey2, hnon2, ← hT] at hfr
      rw [hfr]
      refine ⟨trivial, rfl, ?_⟩
      show p.take j ++ (p.drop j ++ tail.flatten) = (p :: tail).flatten
      rw [← List.append_assoc, List.take_append_drop]
      rfl

/-- Cut inside the payload tag of the first frame (or exactly before it):
the first call pushes the whole payload and buffers the partial tag, the
second verifies the tag and replays the rest. -/
theorem decSplit_zone3 (C : Crypto) (hTag : ∀ k n c, (C.tagOf k n c).length = 16)
    (st : DecState) (p : List Nat) (tail : List (List Nat)) (q : Nat)
    (hgs : st.isGotSalt = true) (hst : st.state = 1 ∨ st.state = 2)
    (hacc : st.cipherAcc = none) (hhand : st.handledPayloadLen = 0)
    (hbuf : st.buf = []) (hps : ∀ x ∈ p :: tail, x.length ≤ MAX_PAYLOAD)
    (hqlo : 18 + p.length ≤ q) (hqhi : q < 34 + p.length) (hqgt : 18 < q) :
    (decUpdate C st ((framesBytes C st.key st.nonce (p :: tail)).take q)).err = none ∧
    (decUpdate C (decUpdate C st ((framesBytes C st.key st.nonce (p :: tail)).take q)).st
        ((framesBytes C st.key st.nonce (p :: tail)).drop q)).err = none ∧
    (decUpdate C st ((framesBytes C st.key st.nonce (p :: tail)).take q)).out ++
      (decUpdate C (decUpdate C st ((framesBytes C st.key st.nonce (p :: tail)).take q)).st
        ((framesBytes C st.key st.nonce (p :: tail)).drop q)).out =
      (p :: tail).flatten := by
  have hpM : p.length ≤ MAX_PAYLOAD := hps p (by simp)
  have hc1 : (sealBytes C st.key st.nonce 0 (writeUInt16BE p.length)).length = 2 := by
    simp [writeUInt16BE]
  have ht1 : (C.tagOf st.key st.nonce
      (sealBytes C st.key st.nonce 0 (writeUInt16BE p.length))).length = 16 := hTag _ _ _
  have hc2 : (sealBytes C st.key (increase st.nonce) 0 p).length = p.length := by simp
  have ht2 : (C.tagOf st.key (increase st.nonce)
      (sealBytes C st.key (increase st.nonce) 0 p)).length = 16 := hTag _ _ _
  generalize hg1 : sealBytes C st.key st.nonce 0 (writeUInt16BE p.length) = c1 at *
  generalize hg2 : C.tagOf st.key st.nonce c1 = t1 at *
  generalize hg3 : sealBytes C st.key (increase st.nonce) 0 p = c2 at *
  generalize hg4 : C.tagOf st.key (increase st.nonce) c2 = t2 at *
  have hFT : framesBytes C st.key st.nonce (p :: tail) =
      c1 ++ (t1 ++ (c2 ++ (t2 ++
        framesBytes C st.key (increase (increase st.nonce)) tail))) := by
    rw [show framesBytes C st.key st.nonce (p :: tail) =
      mkFrame C st.key st.nonce p ++
        framesBytes C st.key (increase (increase st.nonce)) tail from rfl]
    simp only [mkFrame, hg1, hg2, hg3, hg4, List.append_assoc]
  rw [hFT]
  set T := framesBytes C st.key (increase (increase st.nonce)) tail with hT
  obtain ⟨i, rfl⟩ : ∃ i, q = 18 + p.length + i := ⟨q - 18 - p.length, by omega⟩
  have hi16 : i < 16 := by omega
  have hlent : (t2.take i).length = i := by
    rw [List.length_take, ht2]
    omega
  have hqe : 18 + p.length + i = c1.length + (t1.length + (c2.length + i)) := by
    rw [hc1, ht1, hc2]
    omega
  have htakeq : (c1 ++ (t1 ++ (c2 ++ (t2 ++ T)))).take (18 + p.length + i) =
      c1 ++ (t1 ++ (c2 ++ t2.take i)) := by
    rw [hqe, List.take_append, List.take_append, List.take_append,
      List.take_append_of_le_length (by rw [ht2]; omega)]
  have hdropq : (c1 ++ (t1 ++ (c2 ++ (t2 ++ T)))).drop (18 + p.length + i) =
      t2.drop i ++ T := by
    rw [hqe, List.drop_append, List.drop_append, List.drop_append,
      List.drop_append_of_le_length (by rw [ht2]; omega)]
  rw [htakeq, hdropq]
  have hlen1 : (c1 ++ (t1 ++ (c2 ++ t2.take i))).length = 18 + p.length + i := by
    rw [List.length_append, List.length_append, List.length_append,
      hc1, ht1, hc2, hlent]
    omega
  have htake2 : (c1 ++ (t1 ++ (c2 ++ t2.take i))).take 2 = c1 := List.take_left' hc1
  have hdrop2 : (c1 ++ (t1 ++ (c2 ++ t2.take i))).drop 2 = t1 ++ (c2 ++ t2.take i) :=
    List.drop_left' hc1
  have htag1 : ((c1 ++ (t1 ++ (c2 ++ t2.take i))).drop 2).take 16 =
      C.tagOf st.key st.nonce ((c1 ++ (t1 ++ (c2 ++ t2.take i))).take 2) := by
    rw [htake2, hdrop2, List.take_left' ht1, hg2]
  have hread : readUInt16BE (sealBytes C st.key st.nonce 0
      ((c1 ++ (t1 ++ (c2 ++ t2.take i))).take 2)) = p.length := by
    rw [htake2, ← hg1, sealBytes_sealBytes]
    exact readUInt16BE_writeUInt16BE p.length
      (by simp only [MAX_PAYLOAD] at hpM; omega)
  have h18 : ¬(c1 ++ (t1 ++ (c2 ++ t2.take i))).length < 18 := by rw [hlen1]; omega
  have hmax : ¬MAX_PAYLOAD < readUInt16BE (sealBytes C st.key st.nonce 0
      ((c1 ++ (t1 ++ (c2 ++ t2.take i))).take 2)) := by rw [hread]; omega
  have h12 := sec12_cell C st (c1 ++ (t1 ++ (c2 ++ t2.take i))) hst h18 htag1 hmax
  rw [hread, if_neg (by rw [hlen1]; omega)] at h12
  have hdrop18 : (c1 ++ (t1 ++ (c2 ++ t2.take i))).drop 18 = c2 ++ t2.take i := by
    rw [show c1 ++ (t1 ++ (c2 ++ t2.take i)) = (c1 ++ t1) ++ (c2 ++ t2.take i) from by
      rw [List.append_assoc]]
    exact List.drop_left' (by rw [List.length_append, hc1, ht1])
  rw [hdrop18] at h12
  set st3 : DecState := { st with
      state := 3
      nonce := increase st.nonce
      payloadLen := p.length } with hst3
  have hhand3 : st3.handledPayloadLen = 0 := hhand
  have hacc3n : st3.cipherAcc = none := hacc
  have hge : ¬(c2 ++ t2.take i).length + st3.handledPayloadLen < st3.payloadLen := by
    rw [hhand3, List.length_append, hc2, hlent,
      show st3.payloadLen = p.length from rfl]
    omega
  have h3 := sec3_full C st3 (c2 ++ t2.take i) rfl hge
  rw [hhand3, hacc3n] at h3
  simp only [Option.getD_none, List.nil_append, Nat.sub_zero] at h3
  have hdec2 : sealBytes C st3.key st3.nonce 0 c2 = p := by
    rw [show st3.key = st.key from rfl, show st3.nonce = increase st.nonce from rfl,
      ← hg3, sealBytes_sealBytes]
  rw [List.take_left' hc2, List.drop_left' hc2, hdec2] at h3
  rw [decUpdate_clean C st _ hgs hbuf]
  simp only [decLoop]
  by_cases hi0 : i = 0
  · subst hi0
    rw [if_pos (by rw [List.length_append, hc2]; simp)] at h3
    set st4 : DecState := { st3 with
        state := 4
        cipherAcc := some c2
        handledPayloadLen := p.length } with hst4
    rw [decLoopF_3inl C _ st _ st3 _ _ h12 h3]
    dsimp only
    rw [List.drop_zero, decUpdate_clean C st4 _ hgs hbuf]
    simp only [decLoop]
    have htg : C.tagOf st4.key st4.nonce c2 = t2 := hg4
    have hfl : (C.tagOf st4.key st4.nonce c2 ++ T).length < (t2 ++ T).length + 1 := by
      rw [htg]
      omega
    have hres := decLoop_resume4 C hTag ((t2 ++ T).length + 1) st4 T c2 rfl rfl hfl
    rw [htg] at hres
    rw [hres]
    by_cases htail : tail = []
    · subst htail
      rw [if_pos (show T = [] from rfl)]
      exact ⟨trivial, rfl, by simp⟩
    · have hTne : T ≠ [] := framesBytes_ne_nil C hTag _ _ _ htail
      rw [if_neg hTne]
      have hkey2 : (reset1 st4).key = st.key := rfl
      have hnon2 : (reset1 st4).nonce = increase (increase st.nonce) := rfl
      have hfr := decLoop_frames C hTag tail (T.length + 1) (reset1 st4)
        (Or.inl rfl) rfl rfl (fun x hx => hps x (by simp [hx])) htail
        (by rw [hkey2, hnon2, ← hT]; omega)
      rw [hkey2, hnon2, ← hT] at hfr
      rw [hfr]
      exact ⟨trivial, rfl, by simp⟩
  · rw [if_neg (by rw [List.length_append, hc2, hlent]; omega)] at h3
    set st4 : DecState := { st3 with
        state := 4
        cipherAcc := some c2
        handledPayloadLen := p.length } with hst4
    have h4 := sec4_short C st4 (t2.take i) (by rw [hlent]; omega)
    rw [decLoopF_4inl C _ st _ st3 st4 _ _ p _ h12 h3 h4]
    dsimp only
    rw [decUpdate_gotSalt C { st4 with buf := t2.take i } _ hgs]
    dsimp only
    rw [← List.append_assoc, List.take_append_drop,
      buf_erase st4 (show st4.buf = [] from hbuf)]
    simp only [decLoop]
    have htg : C.tagOf st4.key st4.nonce c2 = t2 := hg4
    have hfl : (C.tagOf st4.key st4.nonce c2 ++ T).length < (t2 ++ T).length + 1 := by
      rw [htg]
      omega
    have hres := decLoop_resume4 C hTag ((t2 ++ T).length + 1) st4 T c2 rfl rfl hfl
    rw [htg] at hres
    rw [hres]
    by_cases htail : tail = []
    · subst htail
      rw [if_pos (show T = [] from rfl)]
      exact ⟨trivial, rfl, by simp⟩
    · have hTne : T ≠ [] := framesBytes_ne_nil C hTag _ _ _ htail
      rw [if_neg hTne]
      have hkey2 : (reset1 st4).key = st.key := rfl
      have hnon2 : (reset1 st4).nonce = increase (increase st.nonce) := rfl
      have hfr := decLoop_frames C hTag tail (T.length + 1) (reset1 st4)
        (Or.inl rfl) rfl rfl (fun x hx => hps x (by simp [hx])) htail
        (by rw [hkey2, hnon2, ← hT]; omega)
      rw [hkey2, hnon2, ← hT] at hfr
      rw [hfr]
      exact ⟨trivial, rfl, by simp⟩

/-- Splitting a well-formed frame stream into a prefix and a suffix at ANY
byte position and feeding the two pieces separately: both calls succeed and
together they push exactly the concatenated payloads. -/
theorem decLoop_split (C : Crypto) (hTag : ∀ k n c, (C.tagOf k n c).length = 16) :
    ∀ (ps : List (List Nat)) (st : DecState) (q : Nat),
      st.isGotSalt = true → (st.state = 1 ∨ st.state = 2) → st.cipherAcc = none →
      st.handledPayloadLen = 0 → st.buf = [] →
      (∀ x ∈ ps, x.length ≤ MAX_PAYLOAD) →
      (decUpdate C st ((framesBytes C st.key st.nonce ps).take q)).err = none ∧
      (decUpdate C (decUpdate C st ((framesBytes C st.key st.nonce ps).take q)).st
          ((framesBytes C st.key st.nonce ps).drop q)).err = none ∧
      (decUpdate C st ((framesBytes C st.key st.nonce ps).take q)).out ++
        (decUpdate C (decUpdate C st ((framesBytes C st.key st.nonce ps).take q)).st
          ((framesBytes C st.key st.nonce ps).drop q)).out = ps.flatten := by
  intro ps
  induction ps with
  | nil =>
      intro st q hgs hst hacc hhand hbuf hps
      rw [show framesBytes C st.key st.nonce ([] : List (List Nat)) = [] from rfl]
      simp only [List.take_nil, List.drop_nil]
      rw [decUpdate_clean C st [] hgs hbuf]
      simp only [decLoop]
      rw [decLoopF_12inl C _ st _ _ (sec12_short C st [] hst (by simp))]
      dsimp only
      rw [decUpdate_clean C { st with state := 2, buf := [] } [] hgs rfl]
      simp only [decLoop]
      rw [decLoopF_12inl C _ _ _ _
        (sec12_short C { st with state := 2, buf := [] } [] (Or.inr rfl) (by simp))]
      exact ⟨trivial, rfl, by simp⟩
  | cons p tail ih =>
      intro st q hgs hst hacc hhand hbuf hps
      by_cases hqF : (mkFrame C st.key st.nonce p).length ≤ q
      · -- the cut point is at or after the end of the first frame
        have hfb : framesBytes C st.key st.nonce (p :: tail) =
            mkFrame C st.key st.nonce p ++
              framesBytes C st.key (increase (increase st.nonce)) tail := rfl
        rw [hfb]
        obtain ⟨q2, rfl⟩ : ∃ q2, q = (mkFrame C st.key st.nonce p).length + q2 :=
          ⟨q - (mkFrame C st.key st.nonce p).length, by omega⟩
        rw [List.take_append, List.drop_append]
        rw [decUpdate_clean C st _ hgs hbuf]
        simp only [decLoop]
        rw [decLoop_frame C hTag _ st p _ hst hacc hhand (hps p (by simp)) (by omega)]
        by_cases htq : (framesBytes C st.key (increase (increase st.nonce)) tail).take q2 = []
        · rw [if_pos htq]
          dsimp only
          by_cases htail : tail = []
          · subst htail
            rw [show framesBytes C st.key (increase (increase st.nonce)) [] = [] from rfl]
            simp only [List.drop_nil]
            rw [decUpdate_clean C (resetSt st) [] hgs hbuf]
            simp only [decLoop]
            rw [decLoopF_12inl C _ _ _ _
              (sec12_short C (resetSt st) [] (Or.inl rfl) (by simp))]
            exact ⟨trivial, rfl, by simp⟩
          · have hTne : framesBytes C st.key (increase (increase st.nonce)) tail ≠ [] :=
              framesBytes_ne_nil C hTag _ _ _ htail
            have hq20 : q2 = 0 := by
              rcases List.take_eq_nil_iff.mp htq with h | h
              · exact h
              · exact absurd h hTne
            subst hq20
            rw [List.drop_zero]
            rw [decUpdate_clean C (resetSt st) _ hgs hbuf]
            simp only [decLoop]
            have hkey : (resetSt st).key = st.key := rfl
            have hnon : (resetSt st).nonce = increase (increase st.nonce) := rfl
            have hfr := decLoop_frames C hTag tail
              ((framesBytes C st.key (increase (increase st.nonce)) tail).length + 1)
              (resetSt st) (Or.inl rfl) rfl rfl
              (fun x hx => hps x (by simp [hx])) htail
              (by rw [hkey, hnon]; omega)
            rw [hkey, hnon] at hfr
            rw [hfr]
            exact ⟨trivial, rfl, by simp⟩
        · rw [if_neg htq]
          have hX : decUpdate C (resetSt st)
              ((framesBytes C st.key (increase (increase st.nonce)) tail).take q2) =
              decLoopF C
                (((framesBytes C st.key (increase (increase st.nonce)) tail).take q2).length + 1)
                (resetSt st)
                ((framesBytes C st.key (increase (increase st.nonce)) tail).take q2) :=
            decUpdate_clean C _ _ hgs hbuf
          rw [← hX]
          have hkey : (resetSt st).key = st.key := rfl
          have hnon : (resetSt st).nonce = increase (increase st.nonce) := rfl
          have ihinst := ih (resetSt st) q2 hgs (Or.inl rfl) rfl rfl hbuf
            (fun x hx => hps x (by simp [hx]))
          rw [hkey, hnon] at ihinst
          refine ⟨?_, ?_, ?_⟩
          · show (decUpdate C (resetSt st) _).err = none
            exact ihinst.1
          · exact ihinst.2.1
          · show p ++ (decUpdate C (resetSt st) _).out ++ _ = _
            rw [List.append_assoc, ihinst.2.2]
            rfl
      · -- the cut point is inside the first frame
        push_neg at hqF
        rw [mkFrame_length C hTag] at hqF
        by_cases hq18 : q < 18
        · exact decSplit_zone1 C hTag st p tail q hgs hst hacc hhand hbuf hps hq18
        · push_neg at hq18
          by_cases hqp : q = 18 ∨ q < 18 + p.length
          · exact decSplit_zone2 C hTag st p tail q hgs hst hacc hhand hbuf hps hq18 hqp
          · push_neg at hqp
            exact decSplit_zone3 C hTag st p tail q hgs hst hacc hhand hbuf hps
              (by omega) (by omega) (by omega)

/-! ## Whole runs over chunk sequences -/

theorem stepChunk_none (C : Crypto) (r : DecResult) (c : List Nat)
    (h : r.err = none) :
    stepChunk C r c = ⟨r.out ++ (decUpdate C r.st c).out,
      (decUpdate C r.st c).st, (decUpdate C r.st c).err⟩ := by
  unfold stepChunk
  rw [h]

theorem stepChunk_some (C : Crypto) (r : DecResult) (c : List Nat)
    (e : String) (h : r.err = some e) :
    stepChunk C r c = r := by
  unfold stepChunk
  rw [h]

theorem decRun_one (C : Crypto) (st : DecState) (a : List Nat) :
    decRun C st [a] = stepChunk C ⟨[], st, none⟩ a := rfl

theorem decRun_two (C : Crypto) (st : DecState) (a b : List Nat) :
    decRun C st [a, b] = stepChunk C (stepChunk C ⟨[], st, none⟩ a) b := rfl

theorem pieces_flatten :
    ∀ (chunks : List (List Nat)),
      ((chunks.map splitPayload).flatten).flatten = chunks.flatten
  | [] => rfl
  | c :: cs => by
      simp only [List.map_cons, List.flatten_cons, List.flatten_append,
        splitPayload_flatten, pieces_flatten cs]

/-- Feeding a whole well-formed frame stream in one call from a clean
boundary. -/
theorem decUpdate_whole (C : Crypto) (hTag : ∀ k n c, (C.tagOf k n c).length = 16)
    (st : DecState) (ps : List (List Nat))
    (hgs : st.isGotSalt = true) (hst : st.state = 1 ∨ st.state = 2)
    (hacc : st.cipherAcc = none) (hhand : st.handledPayloadLen = 0)
    (hbuf : st.buf = []) (hps : ∀ x ∈ ps, x.length ≤ MAX_PAYLOAD) (hne : ps ≠ []) :
    decUpdate C st (framesBytes C st.key st.nonce ps) =
      ⟨ps.flatten, resetIter st ps.length, none⟩ := by
  rw [decUpdate_clean C st _ hgs hbuf]
  simp only [decLoop]
  exact decLoop_frames C hTag ps _ st hst hacc hhand hps hne (by omega)

/-! ## C1: codec round trip and boundary robustness -/

/-- C1 (amended): the encrypt–decrypt round trip holds for the whole
ciphertext fed in one piece, and for every two-piece re-chunking whose cut
point is at or after the end of the salt (`saltLen ≤ cp`); cuts strictly
inside the salt are excluded because the Decryptor rejects a first chunk
shorter than the salt. -/
theorem c1_roundtrip_rechunk (C : Crypto)
    (hTag : ∀ k n c, (C.tagOf k n c).length = 16)
    (m : Method) (password salt : List Nat) (c0 : List Nat) (cs : List (List Nat))
    (cp : Nat)
    (hsl : salt.length = (cipherInfoMap m).saltLen)
    (hcp : (cipherInfoMap m).saltLen ≤ cp) :
    (decRun C (decInit C m password)
        [(encRun C (encInit C m password salt) (c0 :: cs)).out]).out =
      (c0 :: cs).flatten ∧
    (decRun C (decInit C m password)
        [(encRun C (encInit C m password salt) (c0 :: cs)).out]).err = none ∧
    (decRun C (decInit C m password)
        [((encRun C (encInit C m password salt) (c0 :: cs)).out).take cp,
         ((encRun C (encInit C m password salt) (c0 :: cs)).out).drop cp]).out =
      (c0 :: cs).flatten ∧
    (decRun C (decInit C m password)
        [((encRun C (encInit C m password salt) (c0 :: cs)).out).take cp,
         ((encRun C (encInit C m password salt) (c0 :: cs)).out).drop cp]).err =
      none := by
  have hct : (encRun C (encInit C m password salt) (c0 :: cs)).out =
      salt ++ framesBytes C
        (C.hkdfF (_evpBytesToKey C.md5F password (cipherInfoMap m).keyLen)
          (cipherInfoMap m).keyLen salt) zeroNonce
        (((c0 :: cs).map splitPayload).flatten) := by
    rw [show encInit C m password salt =
      (⟨C.hkdfF (_evpBytesToKey C.md5F password (cipherInfoMap m).keyLen)
          (cipherInfoMap m).keyLen salt, salt, zeroNonce, false⟩ : EncState) from rfl,
      encRun_eq]
  rw [hct]
  set key0 := C.hkdfF (_evpBytesToKey C.md5F password (cipherInfoMap m).keyLen)
    (cipherInfoMap m).keyLen salt with hkey0
  set ps := ((c0 :: cs).map splitPayload).flatten with hps0
  have hpieces : ∀ x ∈ ps, x.length ≤ MAX_PAYLOAD := by
    intro x hx
    rw [hps0, List.mem_flatten] at hx
    obtain ⟨l, hl, hxl⟩ := hx
    rw [List.mem_map] at hl
    obtain ⟨ch, hch, rfl⟩ := hl
    exact (splitPayload_piece_bounds ch x hxl).2
  have hflat : ps.flatten = (c0 :: cs).flatten := pieces_flatten (c0 :: cs)
  have hSk : (saltedSt C m password salt).key = key0 := rfl
  have hSn : (saltedSt C m password salt).nonce = zeroNonce := rfl
  have hsgs : (saltedSt C m password salt).isGotSalt = true := rfl
  have hsst : (saltedSt C m password salt).state = 1 := rfl
  have hsbuf : (saltedSt C m password salt).buf = [] := rfl
  have hsrec : ({ decInit C m password with
      buf := []
      salt := salt
      key := C.hkdfF (decInit C m password).mainkey (decInit C m password).keyLen salt
      isGotSalt := true } : DecState) = saltedSt C m password salt := rfl
  obtain ⟨q, rfl⟩ : ∃ q, cp = (cipherInfoMap m).saltLen + q :=
    ⟨cp - (cipherInfoMap m).saltLen, by omega⟩
  have htk : (salt ++ framesBytes C key0 zeroNonce ps).take
      ((cipherInfoMap m).saltLen + q) =
      salt ++ (framesBytes C key0 zeroNonce ps).take q := by
    rw [show (cipherInfoMap m).saltLen + q = salt.length + q from by rw [hsl],
      List.take_append]
  have hdr : (salt ++ framesBytes C key0 zeroNonce ps).drop
      ((cipherInfoMap m).saltLen + q) =
      (framesBytes C key0 zeroNonce ps).drop q := by
    rw [show (cipherInfoMap m).saltLen + q = salt.length + q from by rw [hsl],
      List.drop_append]
  rw [htk, hdr]
  have hws : decUpdate C (decInit C m password) salt =
      ⟨[], saltedSt C m password salt, none⟩ := by
    have h := decUpdate_saltFull C (decInit C m password) salt [] rfl rfl hsl
    rw [List.append_nil, if_pos rfl, hsrec] at h
    exact h
  by_cases hbz : framesBytes C key0 zeroNonce ps = []
  · have hpz : ps = [] := by
      by_contra hpzz
      exact framesBytes_ne_nil C hTag key0 zeroNonce ps hpzz hbz
    have hS2 : decUpdate C (saltedSt C m password salt) [] =
        ⟨[], { saltedSt C m password salt with state := 2, buf := [] }, none⟩ := by
      rw [decUpdate_clean C _ [] hsgs hsbuf]
      simp only [decLoop]
      exact decLoopF_12inl C _ _ _ _
        (sec12_short C (saltedSt C m password salt) [] (Or.inl hsst) (by simp))
    rw [hbz, List.take_nil, List.drop_nil, List.append_nil]
    rw [decRun_one, decRun_two, stepChunk_none C _ _ rfl]
    dsimp only
    rw [hws]
    dsimp only
    rw [stepChunk_none C _ _ rfl]
    dsimp only
    rw [hS2]
    exact ⟨by simp [← hflat, hpz], rfl, by simp [← hflat, hpz], rfl⟩
  · have hpz : ps ≠ [] := by
      intro h
      rw [h] at hbz
      exact hbz rfl
    have hw := decUpdate_whole C hTag (saltedSt C m password salt) ps
      rfl (Or.inl rfl) rfl rfl rfl hpieces hpz
    rw [hSk, hSn] at hw
    have hwfeed : decUpdate C (decInit C m password)
        (salt ++ framesBytes C key0 zeroNonce ps) =
        ⟨ps.flatten, resetIter (saltedSt C m password salt) ps.length, none⟩ := by
      have h := decUpdate_saltFull C (decInit C m password) salt
        (framesBytes C key0 zeroNonce ps) rfl rfl hsl
      rw [if_neg hbz, hsrec] at h
      rw [h, ← decUpdate_clean C _ _ hsgs hsbuf, hw]
    rw [decRun_one, decRun_two,
      stepChunk_none C ⟨[], decInit C m password, none⟩
        (salt ++ framesBytes C key0 zeroNonce ps) rfl]
    dsimp only
    rw [hwfeed]
    by_cases hbtq : (framesBytes C key0 zeroNonce ps).take q = []
    · have hq0 : q = 0 := by
        rcases List.take_eq_nil_iff.mp hbtq with h | h
        · exact h
        · exact absurd h hbz
      subst hq0
      rw [List.take_zero, List.drop_zero, List.append_nil]
      rw [stepChunk_none C ⟨[], decInit C m password, none⟩ salt rfl]
      dsimp only
      rw [hws]
      dsimp only
      rw [stepChunk_none C _ _ rfl]
      dsimp only
      rw [hw]
      exact ⟨by simp [hflat], rfl, by simp [hflat], rfl⟩
    · have hsp := decLoop_split C hTag ps (saltedSt C m password salt) q
        rfl (Or.inl rfl) rfl rfl rfl hpieces
      rw [hSk, hSn] at hsp
      have hr1 : decUpdate C (decInit C m password)
          (salt ++ (framesBytes C key0 zeroNonce ps).take q) =
          decUpdate C (saltedSt C m password salt)
            ((framesBytes C key0 zeroNonce ps).take q) := by
        have h := decUpdate_saltFull C (decInit C m password) salt
          ((framesBytes C key0 zeroNonce ps).take q) rfl rfl hsl
        rw [if_neg hbtq, hsrec] at h
        rw [h, ← decUpdate_clean C _ _ hsgs hsbuf]
      rw [stepChunk_none C ⟨[], decInit C m password, none⟩
        (salt ++ (framesBytes C key0 zeroNonce ps).take q) rfl]
      dsimp only
      rw [hr1]
      rw [stepChunk_none C _ _ (by dsimp only; exact hsp.1)]
      dsimp only
      refine ⟨by simp [hflat], rfl, ?_, hsp.2.1⟩
      rw [List.nil_append, hsp.2.2]
      exact hflat

/-- C1 counterexample: cutting the ciphertext strictly inside the salt (here
after 1 byte) makes the Decryptor raise "invalid salt" and emit nothing,
instead of round-tripping — refuting the "including splits that fall inside
the salt prefix" part of the claim. -/
theorem c1_split_in_salt_fails :
    (decRun cSum (decInit cSum Method.aes128gcm [112])
        [((encRun cSum (encInit cSum Method.aes128gcm [112]
            (List.replicate 16 7)) [[1, 2, 3]]).out).take 1,
         ((encRun cSum (encInit cSum Method.aes128gcm [112]
            (List.replicate 16 7)) [[1, 2, 3]]).out).drop 1]).err =
      some "invalid salt" ∧
    (decRun cSum (decInit cSum Method.aes128gcm [112])
        [((encRun cSum (encInit cSum Method.aes128gcm [112]
            (List.replicate 16 7)) [[1, 2, 3]]).out).take 1,
         ((encRun cSum (encInit cSum Method.aes128gcm [112]
            (List.replicate 16 7)) [[1, 2, 3]]).out).drop 1]).out = [] := by
  constructor
  · decide
  · decide

/-- Witness for the amended C1 at concrete inputs: a cut at byte 20 (inside
the first frame, after the 16-byte salt) round-trips. -/
theorem c1_roundtrip_rechunk_witness :
    (∀ k n c, (cSum.tagOf k n c).length = 16) ∧
    (List.replicate 16 7).length = (cipherInfoMap Method.aes128gcm).saltLen ∧
    (cipherInfoMap Method.aes128gcm).saltLen ≤ 20 ∧
    (decRun cSum (decInit cSum Method.aes128gcm [112])
        [((encRun cSum (encInit cSum Method.aes128gcm [112]
            (List.replicate 16 7)) [[1, 2, 3]]).out).take 20,
         ((encRun cSum (encInit cSum Method.aes128gcm [112]
            (List.replicate 16 7)) [[1, 2, 3]]).out).drop 20]).out =
      ([[1, 2, 3]] : List (List Nat)).flatten ∧
    (decRun cSum (decInit cSum Method.aes128gcm [112])
        [((encRun cSum (encInit cSum Method.aes128gcm [112]
            (List.replicate 16 7)) [[1, 2, 3]]).out).take 20,
         ((encRun cSum (encInit cSum Method.aes128gcm [112]
            (List.replicate 16 7)) [[1, 2, 3]]).out).drop 20]).err = none :=
  ⟨by intro k n c; simp [cSum, cZero, sumTag],
   by decide, by decide,
   (c1_roundtrip_rechunk cSum (by intro k n c; simp [cSum, cZero, sumTag])
     Method.aes128gcm [112] (List.replicate 16 7) [1, 2, 3] [] 20
     (by decide) (by decide)).2.2.1,
   (c1_roundtrip_rechunk cSum (by intro k n c; simp [cSum, cZero, sumTag])
     Method.aes128gcm [112] (List.replicate 16 7) [1, 2, 3] [] 20
     (by decide) (by decide)).2.2.2⟩

/-! ## C2: plaintext streaming versus tag verification -/

/-- C2 (amended): the Decryptor pushes the decrypted payload BEFORE the
payload tag is verified.  Feeding a frame whose payload tag bytes are
garbage, the whole (possibly forged) payload comes out together with the
fatal "unable to authenticate data" error. -/
theorem c2_plaintext_before_tag (C : Crypto)
    (hTag : ∀ k n c, (C.tagOf k n c).length = 16)
    (st : DecState) (p t2' : List Nat)
    (hst : st.state = 1 ∨ st.state = 2) (hacc : st.cipherAcc = none)
    (hhand : st.handledPayloadLen = 0) (hpM : p.length ≤ MAX_PAYLOAD)
    (ht2' : t2'.length = 16)
    (hbad : ¬t2' = C.tagOf st.key (increase st.nonce)
      (sealBytes C st.key (increase st.nonce) 0 p)) :
    decLoop C st
        (sealBytes C st.key st.nonce 0 (writeUInt16BE p.length) ++
          (C.tagOf st.key st.nonce
              (sealBytes C st.key st.nonce 0 (writeUInt16BE p.length)) ++
            (sealBytes C st.key (increase st.nonce) 0 p ++ t2'))) =
      ⟨p, { st with
              state := 4
              nonce := increase st.nonce
              payloadLen := p.length
              handledPayloadLen := p.length
              cipherAcc := some (sealBytes C st.key (increase st.nonce) 0 p) },
       some "unable to authenticate data"⟩ := by
  have hc1 : (sealBytes C st.key st.nonce 0 (writeUInt16BE p.length)).length = 2 := by
    simp [writeUInt16BE]
  have ht1 : (C.tagOf st.key st.nonce
      (sealBytes C st.key st.nonce 0 (writeUInt16BE p.length))).length = 16 := hTag _ _ _
  have hc2 : (sealBytes C st.key (increase st.nonce) 0 p).length = p.length := by simp
  generalize hg1 : sealBytes C st.key st.nonce 0 (writeUInt16BE p.length) = c1 at *
  generalize hg2 : C.tagOf st.key st.nonce c1 = t1 at *
  generalize hg3 : sealBytes C st.key (increase st.nonce) 0 p = c2 at *
  simp only [decLoop]
  have hlen : (c1 ++ (t1 ++ (c2 ++ t2'))).length = 34 + p.length := by
    simp [hc1, ht1, hc2, ht2']
    omega
  have htake2 : (c1 ++ (t1 ++ (c2 ++ t2'))).take 2 = c1 := List.take_left' hc1
  have hdrop2 : (c1 ++ (t1 ++ (c2 ++ t2'))).drop 2 = t1 ++ (c2 ++ t2') :=
    List.drop_left' hc1
  have htag1 : ((c1 ++ (t1 ++ (c2 ++ t2'))).drop 2).take 16 =
      C.tagOf st.key st.nonce ((c1 ++ (t1 ++ (c2 ++ t2'))).take 2) := by
    rw [htake2, hdrop2, List.take_left' ht1, hg2]
  have hread : readUInt16BE (sealBytes C st.key st.nonce 0
      ((c1 ++ (t1 ++ (c2 ++ t2'))).take 2)) = p.length := by
    rw [htake2, ← hg1, sealBytes_sealBytes]
    exact readUInt16BE_writeUInt16BE p.length
      (by simp only [MAX_PAYLOAD] at hpM; omega)
  have h18 : ¬(c1 ++ (t1 ++ (c2 ++ t2'))).length < 18 := by rw [hlen]; omega
  have hmax : ¬MAX_PAYLOAD < readUInt16BE (sealBytes C st.key st.nonce 0
      ((c1 ++ (t1 ++ (c2 ++ t2'))).take 2)) := by rw [hread]; omega
  have h12 := sec12_cell C st (c1 ++ (t1 ++ (c2 ++ t2'))) hst h18 htag1 hmax
  rw [hread, if_neg (by rw [hlen]; omega)] at h12
  have hdrop18 : (c1 ++ (t1 ++ (c2 ++ t2'))).drop 18 = c2 ++ t2' := by
    rw [show c1 ++ (t1 ++ (c2 ++ t2')) = (c1 ++ t1) ++ (c2 ++ t2') from by
      rw [List.append_assoc]]
    exact List.drop_left' (by rw [List.length_append, hc1, ht1])
  rw [hdrop18] at h12
  set st3 : DecState := { st with
      state := 3
      nonce := increase st.nonce
      payloadLen := p.length } with hst3
  have hhand3 : st3.handledPayloadLen = 0 := hhand
  have hacc3n : st3.cipherAcc = none := hacc
  have hge : ¬(c2 ++ t2').length + st3.handledPayloadLen < st3.payloadLen := by
    rw [hhand3, List.length_append, hc2, ht2', show st3.payloadLen = p.length from rfl]
    omega
  have h3 := sec3_full C st3 (c2 ++ t2') rfl hge
  rw [hhand3, hacc3n] at h3
  simp only [Option.getD_none, List.nil_append, Nat.sub_zero] at h3
  have hdec2 : sealBytes C st3.key st3.nonce 0 c2 = p := by
    rw [show st3.key = st.key from rfl, show st3.nonce = increase st.nonce from rfl,
      ← hg3, sealBytes_sealBytes]
  rw [List.take_left' hc2, List.drop_left' hc2, hdec2] at h3
  rw [if_neg (by rw [List.length_append, hc2, ht2']; omega)] at h3
  set st4 : DecState := { st3 with
      state := 4
      cipherAcc := some c2
      handledPayloadLen := p.length } with hst4
  have h4 := sec4_authfail C st4 t2' (by rw [ht2']; omega)
    (by
      rw [List.take_of_length_le (by rw [ht2'])]
      rw [show st4.cipherAcc.getD [] = c2 from rfl,
        show st4.key = st.key from rfl, show st4.nonce = increase st.nonce from rfl]
      exact hbad)
  rw [decLoopF_4inl C _ st _ st3 st4 _ _ p _ h12 h3 h4]
  simp [hst4, hst3]

/-- C2 counterexample: feeding the salt, a valid length cell and ONE payload
ciphertext byte — with the payload tag never arriving — already pushes one
decrypted plaintext byte, refuting "no plaintext byte is pushed before the
frame tag has been received and verified". -/
theorem c2_early_push :
    (decRun cSum (decInit cSum Method.aes128gcm [112])
        [((encRun cSum (encInit cSum Method.aes128gcm [112]
            (List.replicate 16 7)) [[9, 8]]).out).take 35]).out = [9] ∧
    (decRun cSum (decInit cSum Method.aes128gcm [112])
        [((encRun cSum (encInit cSum Method.aes128gcm [112]
            (List.replicate 16 7)) [[9, 8]]).out).take 35]).err = none := by
  constructor
  · decide
  · decide

/-- Witness for the amended C2 at concrete inputs: a frame with a garbage
payload tag still pushes its whole decrypted payload. -/
theorem c2_plaintext_before_tag_witness :
    ¬(List.replicate 16 1 : List Nat) =
        cSum.tagOf (decInit cSum Method.aes128gcm [112]).key
          (increase (decInit cSum Method.aes128gcm [112]).nonce)
          (sealBytes cSum (decInit cSum Method.aes128gcm [112]).key
            (increase (decInit cSum Method.aes128gcm [112]).nonce) 0 [5]) ∧
    (decLoop cSum (decInit cSum Method.aes128gcm [112])
        (sealBytes cSum (decInit cSum Method.aes128gcm [112]).key
            (decInit cSum Method.aes128gcm [112]).nonce 0
            (writeUInt16BE ([5] : List Nat).length) ++
          (cSum.tagOf (decInit cSum Method.aes128gcm [112]).key
              (decInit cSum Method.aes128gcm [112]).nonce
              (sealBytes cSum (decInit cSum Method.aes128gcm [112]).key
                (decInit cSum Method.aes128gcm [112]).nonce 0
                (writeUInt16BE ([5] : List Nat).length)) ++
            (sealBytes cSum (decInit cSum Method.aes128gcm [112]).key
                (increase (decInit cSum Method.aes128gcm [112]).nonce) 0 [5] ++
              List.replicate 16 1)))).out = [5] ∧
    (decLoop cSum (decInit cSum Method.aes128gcm [112])
        (sealBytes cSum (decInit cSum Method.aes128gcm [112]).key
            (decInit cSum Method.aes128gcm [112]).nonce 0
            (writeUInt16BE ([5] : List Nat).length) ++
          (cSum.tagOf (decInit cSum Method.aes128gcm [112]).key
              (decInit cSum Method.aes128gcm [112]).nonce
              (sealBytes cSum (decInit cSum Method.aes128gcm [112]).key
                (decInit cSum Method.aes128gcm [112]).nonce 0
                (writeUInt16BE ([5] : List Nat).length)) ++
            (sealBytes cSum (decInit cSum Method.aes128gcm [112]).key
                (increase (decInit cSum Method.aes128gcm [112]).nonce) 0 [5] ++
              List.replicate 16 1)))).err = some "unable to authenticate data" :=
  ⟨by decide,
   by rw [c2_plaintext_before_tag cSum (by intro k n c; simp [cSum, cZero, sumTag])
      (decInit cSum Method.aes128gcm [112]) [5] (List.replicate 16 1)
      (Or.inl rfl) rfl rfl (by decide) (by decide) (by decide)],
   by rw [c2_plaintext_before_tag cSum (by intro k n c; simp [cSum, cZero, sumTag])
      (decInit cSum Method.aes128gcm [112]) [5] (List.replicate 16 1)
      (Or.inl rfl) rfl rfl (by decide) (by decide) (by decide)]⟩

/-! ## C5/C6: the length cell — nonce increment and length validation -/

/-- Processing an exact 18-byte authenticated length cell from a frame
boundary: the nonce is incremented unconditionally, then the decrypted
length is compared against MAX_PAYLOAD. -/
theorem decLoop_cell18 (C : Crypto) (st : DecState) (c1 t1 : List Nat)
    (hst : st.state = 1 ∨ st.state = 2)
    (hc1 : c1.length = 2) (ht1 : t1 = C.tagOf st.key st.nonce c1)
    (ht1len : t1.length = 16) :
    decLoop C st (c1 ++ t1) =
      if MAX_PAYLOAD < readUInt16BE (sealBytes C st.key st.nonce 0 c1) then
        ⟨[], { st with
                 state := 2
                 nonce := increase st.nonce
                 payloadLen := readUInt16BE (sealBytes C st.key st.nonce 0 c1) },
         some "invalid payload len"⟩
      else
        ⟨[], { st with
                 state := 3
                 nonce := increase st.nonce
                 payloadLen := readUInt16BE (sealBytes C st.key st.nonce 0 c1) },
         none⟩ := by
  have htake2 : (c1 ++ t1).take 2 = c1 := List.take_left' hc1
  have h18 : ¬(c1 ++ t1).length < 18 := by
    rw [List.length_append, hc1, ht1len]
    omega
  have h18e : (c1 ++ t1).length = 18 := by
    rw [List.length_append, hc1, ht1len]
  have htag : ((c1 ++ t1).drop 2).take 16 =
      C.tagOf st.key st.nonce ((c1 ++ t1).take 2) := by
    rw [htake2, List.drop_left' hc1,
      List.take_of_length_le (le_of_eq ht1len), ht1]
  simp only [decLoop]
  by_cases hm : MAX_PAYLOAD < readUInt16BE (sealBytes C st.key st.nonce 0 c1)
  · rw [if_pos hm]
    apply decLoopF_12inl
    have h := sec12_badlen C st (c1 ++ t1) hst h18 htag (by rw [htake2]; exact hm)
    rw [htake2] at h
    exact h
  · rw [if_neg hm]
    apply decLoopF_12inl
    have h := sec12_cell C st (c1 ++ t1) hst h18 htag (by rw [htake2]; exact hm)
    rw [htake2, if_pos h18e] at h
    exact h

/-- C5 (amended): when the decrypted payload length exceeds MAX_PAYLOAD the
"invalid payload len" error is raised AFTER the nonce was already
incremented: the state carried by the error holds `increase st.nonce`, not
the pre-frame nonce. -/
theorem c5_nonce_incremented_on_badlen (C : Crypto) (st : DecState)
    (c1 t1 : List Nat)
    (hst : st.state = 1 ∨ st.state = 2)
    (hc1 : c1.length = 2) (ht1 : t1 = C.tagOf st.key st.nonce c1)
    (ht1len : t1.length = 16)
    (hmax : MAX_PAYLOAD < readUInt16BE (sealBytes C st.key st.nonce 0 c1)) :
    decLoop C st (c1 ++ t1) =
      ⟨[], { st with
               state := 2
               nonce := increase st.nonce
               payloadLen := readUInt16BE (sealBytes C st.key st.nonce 0 c1) },
       some "invalid payload len"⟩ := by
  rw [decLoop_cell18 C st c1 t1 hst hc1 ht1 ht1len, if_pos hmax]

/-- Witness for C5: a cell declaring length 65535 is rejected, and the nonce
carried by the erroring state is the incremented one. -/
theorem c5_witness :
    ([255, 255] : List Nat).length = 2 ∧
    MAX_PAYLOAD < readUInt16BE (sealBytes cZero
      (decInit cZero Method.aes128gcm [112]).key
      (decInit cZero Method.aes128gcm [112]).nonce 0 [255, 255]) ∧
    (decLoop cZero (decInit cZero Method.aes128gcm [112])
        ([255, 255] ++ List.replicate 16 0)).err = some "invalid payload len" ∧
    (decLoop cZero (decInit cZero Method.aes128gcm [112])
        ([255, 255] ++ List.replicate 16 0)).st.nonce =
      increase (decInit cZero Method.aes128gcm [112]).nonce :=
  ⟨by decide, by decide,
   by rw [c5_nonce_incremented_on_badlen cZero (decInit cZero Method.aes128gcm [112])
      [255, 255] (List.replicate 16 0) (Or.inl rfl) (by decide) (by decide)
      (by decide) (by decide)],
   by rw [c5_nonce_incremented_on_badlen cZero (decInit cZero Method.aes128gcm [112])
      [255, 255] (List.replicate 16 0) (Or.inl rfl) (by decide) (by decide)
      (by decide) (by decide)]⟩

/-- C5 counterexample: through the full pipeline, after "invalid payload
len" the decryptor state does NOT hold its pre-frame nonce (all-zero): the
counter was already incremented — refuting "the length is validated before
the nonce is incremented / the nonce still holds its pre-frame value". -/
theorem c5_nonce_not_preframe :
    (decRun cZero (decInit cZero Method.aes128gcm [112])
        [List.replicate 16 0 ++ ([255, 255] ++ List.replicate 16 0)]).err =
      some "invalid payload len" ∧
    ¬(decRun cZero (decInit cZero Method.aes128gcm [112])
        [List.replicate 16 0 ++ ([255, 255] ++ List.replicate 16 0)]).st.nonce =
      (decInit cZero Method.aes128gcm [112]).nonce := by
  constructor
  · decide
  · decide

/-- C6 (amended): an authenticated length cell is fatal IFF the decrypted
length exceeds MAX_PAYLOAD; there is no lower bound check, so length 0 is
accepted. -/
theorem c6_len_fatal_iff_gt_max (C : Crypto) (st : DecState)
    (c1 t1 : List Nat)
    (hst : st.state = 1 ∨ st.state = 2)
    (hc1 : c1.length = 2) (ht1 : t1 = C.tagOf st.key st.nonce c1)
    (ht1len : t1.length = 16) :
    (decLoop C st (c1 ++ t1)).err = some "invalid payload len" ↔
      MAX_PAYLOAD < readUInt16BE (sealBytes C st.key st.nonce 0 c1) := by
  rw [decLoop_cell18 C st c1 t1 hst hc1 ht1 ht1len]
  by_cases hm : MAX_PAYLOAD < readUInt16BE (sealBytes C st.key st.nonce 0 c1)
  · rw [if_pos hm]
    simp [hm]
  · rw [if_neg hm]
    simp [hm]

/-- Witness for C6 at a zero-length cell: not fatal. -/
theorem c6_witness :
    ([0, 0] : List Nat).length = 2 ∧
    ((decLoop cZero (decInit cZero Method.aes128gcm [112])
        ([0, 0] ++ List.replicate 16 0)).err = some "invalid payload len" ↔
      MAX_PAYLOAD < readUInt16BE (sealBytes cZero
        (decInit cZero Method.aes128gcm [112]).key
        (decInit cZero Method.aes128gcm [112]).nonce 0 [0, 0])) :=
  ⟨by decide,
   c6_len_fatal_iff_gt_max cZero (decInit cZero Method.aes128gcm [112])
     [0, 0] (List.replicate 16 0) (Or.inl rfl) (by decide) (by decide) (by decide)⟩

/-- C6 counterexample: a complete frame declaring a ZERO-length payload is
fully accepted (no error, decryptor back at the frame boundary), refuting
"payload length < 1 raises a fatal error". -/
theorem c6_zero_len_accepted :
    (decRun cZero (decInit cZero Method.aes128gcm [112])
        [List.replicate 16 0 ++
          ([0, 0] ++ (List.replicate 16 0 ++ List.replicate 16 0))]).err = none ∧
    (decRun cZero (decInit cZero Method.aes128gcm [112])
        [List.replicate 16 0 ++
          ([0, 0] ++ (List.replicate 16 0 ++ List.replicate 16 0))]).st.state = 1 ∧
    (decRun cZero (decInit cZero Method.aes128gcm [112])
        [List.replicate 16 0 ++
          ([0, 0] ++ (List.replicate 16 0 ++ List.replicate 16 0))]).out = [] := by
  refine ⟨?_, ?_, ?_⟩
  · decide
  · decide
  · decide

/-! ## C7: SOCKS5 success reply versus transport connection -/

/-- C7 counterexample: in the WebSocket tunnel flavor the positive SOCKS5
reply is written to the client BEFORE the WebSocket transport has completed
its connection, refuting "for both tunnel flavors the reply is never
written before the transport is connected". -/
theorem c7_ws_reply_before_connected :
    replyAfterConnected useWebSocketTunnelTrace false = false := by
  decide

/-- C7 (amended): the raw-TCP tunnel writes the positive SOCKS5 reply only
after the transport's connect event, but the WebSocket tunnel writes it
immediately, before the socket is open. -/
theorem c7_reply_timing :
    replyAfterConnected useTcpTunnelTrace false = true ∧
    replyAfterConnected useWebSocketTunnelTrace false = false := by
  constructor
  · decide
  · decide

/-! ## C9: a too-short first chunk is rejected, not buffered -/

/-- C9: when the first data a Decryptor receives is shorter than the cipher
suite's salt length it raises "invalid salt" immediately: nothing is
output, and the state is unchanged (no salt stored, no session key derived,
`isGotSalt` still false). -/
theorem c9_short_salt_rejected (C : Crypto) (m : Method) (password c : List Nat)
    (hlen : c.length < (cipherInfoMap m).saltLen) :
    decRun C (decInit C m password) [c] =
      ⟨[], decInit C m password, some "invalid salt"⟩ := by
  rw [decRun_one, stepChunk_none C _ _ rfl]
  dsimp only
  rw [decUpdate_saltShort C (decInit C m password) c rfl rfl hlen,
    buf_erase (decInit C m password) rfl]
  rfl

/-- Witness for C9: a 3-byte first chunk against a 16-byte-salt suite. -/
theorem c9_witness :
    ([1, 2, 3] : List Nat).length < (cipherInfoMap Method.aes128gcm).saltLen ∧
    decRun cZero (decInit cZero Method.aes128gcm [112]) [[1, 2, 3]] =
      ⟨[], decInit cZero Method.aes128gcm [112], some "invalid salt"⟩ :=
  ⟨by decide,
   c9_short_salt_rejected cZero Method.aes128gcm [112] [1, 2, 3] (by decide)⟩

/-! ## C10: flush errors exactly off the frame boundary -/

/-- C10: `_flush` raises "invalid data" iff the state machine is not in the
initial AWAIT_LEN boundary state (state 1); a stream that ends exactly on a
frame boundary (a whole well-formed ciphertext) flushes cleanly, while one
that ends mid-frame (here: inside the first length cell) flushes with the
error. -/
theorem c10_flush_iff_midframe (C : Crypto)
    (hTag : ∀ k n c, (C.tagOf k n c).length = 16)
    (m : Method) (password salt : List Nat) (c0 : List Nat) (cs : List (List Nat))
    (extra : List Nat)
    (hsl : salt.length = (cipherInfoMap m).saltLen)
    (hexne : extra ≠ []) (hex18 : extra.length < 18) :
    (∀ st : DecState, decFlush st = some "invalid data" ↔ ¬st.state = 1) ∧
    decFlush ((decRun C (decInit C m password)
        [(encRun C (encInit C m password salt) (c0 :: cs)).out]).st) = none ∧
    decFlush ((decRun C (decInit C m password) [salt ++ extra]).st) =
      some "invalid data" := by
  have hiff : ∀ st : DecState, decFlush st = some "invalid data" ↔ ¬st.state = 1 := by
    intro st
    by_cases h : st.state = 1
    · simp [decFlush, h]
    · simp [decFlush, h]
  have hsrec : ({ decInit C m password with
      buf := []
      salt := salt
      key := C.hkdfF (decInit C m password).mainkey (decInit C m password).keyLen salt
      isGotSalt := true } : DecState) = saltedSt C m password salt := rfl
  refine ⟨hiff, ?_, ?_⟩
  · -- a whole well-formed stream ends in state 1
    have hct : (encRun C (encInit C m password salt) (c0 :: cs)).out =
        salt ++ framesBytes C
          (C.hkdfF (_evpBytesToKey C.md5F password (cipherInfoMap m).keyLen)
            (cipherInfoMap m).keyLen salt) zeroNonce
          (((c0 :: cs).map splitPayload).flatten) := by
      rw [show encInit C m password salt =
        (⟨C.hkdfF (_evpBytesToKey C.md5F password (cipherInfoMap m).keyLen)
            (cipherInfoMap m).keyLen salt, salt, zeroNonce, false⟩ : EncState) from rfl,
        encRun_eq]
    rw [hct]
    set key0 := C.hkdfF (_evpBytesToKey C.md5F password (cipherInfoMap m).keyLen)
      (cipherInfoMap m).keyLen salt with hkey0
    set ps := ((c0 :: cs).map splitPayload).flatten with hps0
    have hpieces : ∀ x ∈ ps, x.length ≤ MAX_PAYLOAD := by
      intro x hx
      rw [hps0, List.mem_flatten] at hx
      obtain ⟨l, hl, hxl⟩ := hx
      rw [List.mem_map] at hl
      obtain ⟨ch, hch, rfl⟩ := hl
      exact (splitPayload_piece_bounds ch x hxl).2
    have hSk : (saltedSt C m password salt).key = key0 := rfl
    have hSn : (saltedSt C m password salt).nonce = zeroNonce := rfl
    rw [decRun_one, stepChunk_none C _ _ rfl]
    dsimp only
    by_cases hbz : framesBytes C key0 zeroNonce ps = []
    · have h := decUpdate_saltFull C (decInit C m password) salt
        (framesBytes C key0 zeroNonce ps) rfl rfl hsl
      rw [if_pos hbz, hsrec] at h
      rw [h]
      rfl
    · have hpz : ps ≠ [] := by
        intro h
        rw [h] at hbz
        exact hbz rfl
      have hw := decUpdate_whole C hTag (saltedSt C m password salt) ps
        rfl (Or.inl rfl) rfl rfl rfl hpieces hpz
      rw [hSk, hSn] at hw
      have h := decUpdate_saltFull C (decInit C m password) salt
        (framesBytes C key0 zeroNonce ps) rfl rfl hsl
      rw [if_neg hbz, hsrec] at h
      rw [h, ← decUpdate_clean C _ _ rfl rfl, hw]
      rfl
  · -- a stream ending inside the first length cell flushes with an error
    rw [decRun_one, stepChunk_none C _ _ rfl]
    dsimp only
    have h := decUpdate_saltFull C (decInit C m password) salt extra rfl rfl hsl
    rw [if_neg hexne, hsrec] at h
    rw [h]
    simp only [decLoop]
    rw [decLoopF_12inl C _ _ _ _
      (sec12_short C (saltedSt C m password salt) extra (Or.inl rfl) hex18)]
    rfl

/-! ## C8: the EVP_BytesToKey master key and its cache -/

theorem md5Chain_length (md5F : List Nat → List Nat)
    (hm : ∀ b, (md5F b).length = 16) (pw : List Nat) :
    ∀ i, (md5Chain md5F pw i).length = 16
  | 0 => hm pw
  | _ + 1 => hm _

theorem chainCat_length (md5F : List Nat → List Nat)
    (hm : ∀ b, (md5F b).length = 16) (pw : List Nat) :
    ∀ n, (((List.range n).map (md5Chain md5F pw)).flatten).length = n * 16 := by
  intro n
  induction n with
  | zero => rfl
  | succ k ih =>
      rw [List.range_succ, List.map_append, List.flatten_append, List.length_append, ih]
      simp [md5Chain_length md5F hm pw]
      omega

theorem bufCopy_inside (dst src : List Nat) (start : Nat)
    (hs : src.length = 16) (h : start + 16 ≤ dst.length) :
    bufCopy dst start src = dst.take start ++ src ++ dst.drop (start + 16) := by
  unfold bufCopy
  dsimp only
  rw [hs, show min 16 (dst.length - start) = 16 from by omega,
    List.take_of_length_le (le_of_eq hs)]

theorem bufCopy_past (dst src : List Nat) (start : Nat)
    (h : dst.length ≤ start) :
    bufCopy dst start src = dst := by
  unfold bufCopy
  dsimp only
  rw [show min src.length (dst.length - start) = 0 from by omega]
  simp [List.take_of_length_le h, List.drop_of_length_le h]

/-- The state of the `_evpBytesToKey` fill loop after `i` iterations: the
first `min (i+1) cnt` 16-byte blocks hold the hash chain, the rest is still
zero. -/
theorem evpLoop_inv (md5F : List Nat → List Nat)
    (hm : ∀ b, (md5F b).length = 16) (password : List Nat) (cnt : Nat)
    (hcnt : 1 ≤ cnt) :
    ∀ i, i ≤ cnt →
      (List.range i).foldl
        (fun m i2 =>
          bufCopy m ((i2 + 1) * 16)
            (md5F ((m.drop ((i2 + 1) * 16 - 16)).take 16 ++ password)))
        (bufCopy (List.replicate (cnt * 16) 0) 0 (md5F password)) =
      ((List.range (min (i + 1) cnt)).map (md5Chain md5F password)).flatten ++
        List.replicate ((cnt - min (i + 1) cnt) * 16) 0 := by
  have hm0 : bufCopy (List.replicate (cnt * 16) 0) 0 (md5F password) =
      md5Chain md5F password 0 ++ List.replicate ((cnt - 1) * 16) 0 := by
    rw [bufCopy_inside _ _ 0 (hm password)
      (by rw [List.length_replicate]; omega)]
    rw [List.take_zero, List.drop_replicate, List.nil_append]
    rw [show cnt * 16 - (0 + 16) = (cnt - 1) * 16 from by omega]
    rfl
  intro i
  induction i with
  | zero =>
      intro _
      rw [List.range_zero, List.foldl_nil, hm0,
        show min (0 + 1) cnt = 1 from by omega]
      rw [show List.range 1 = [0] from rfl]
      simp
  | succ k ih =>
      intro hk1
      rw [List.range_succ, List.foldl_append, ih (by omega), List.foldl_cons,
        List.foldl_nil]
      rw [show min (k + 1) cnt = k + 1 from by omega]
      have hlenA : (((List.range (k + 1)).map (md5Chain md5F password)).flatten).length =
          (k + 1) * 16 := chainCat_length md5F hm password (k + 1)
      have hlenM : ((((List.range (k + 1)).map (md5Chain md5F password)).flatten) ++
          List.replicate ((cnt - (k + 1)) * 16) 0).length = cnt * 16 := by
        rw [List.length_append, hlenA, List.length_replicate]
        omega
      have hdropk : ((((List.range (k + 1)).map (md5Chain md5F password)).flatten) ++
          List.replicate ((cnt - (k + 1)) * 16) 0).drop ((k + 1) * 16 - 16) =
          md5Chain md5F password k ++ List.replicate ((cnt - (k + 1)) * 16) 0 := by
        rw [show (k + 1) * 16 - 16 = k * 16 from by omega]
        rw [List.drop_append_of_le_length (by rw [hlenA]; omega)]
        rw [List.range_succ, List.map_append, List.flatten_append]
        rw [List.drop_append_of_le_length
          (by rw [chainCat_length md5F hm password k])]
        rw [List.drop_of_length_le (le_of_eq (chainCat_length md5F hm password k))]
        simp
      have htakek : (md5Chain md5F password k ++
          List.replicate ((cnt - (k + 1)) * 16) 0).take 16 =
          md5Chain md5F password k :=
        List.take_left' (md5Chain_length md5F hm password k)
      rw [hdropk, htakek]
      have hnext : md5F (md5Chain md5F password k ++ password) =
          md5Chain md5F password (k + 1) := rfl
      rw [hnext]
      by_cases hend : k + 1 < cnt
      · rw [bufCopy_inside _ _ _ (md5Chain_length md5F hm password (k + 1))
          (by rw [hlenM]; omega)]
        rw [List.take_append_of_le_length (by rw [hlenA]),
          List.take_of_length_le (le_of_eq hlenA)]
        rw [List.drop_append_eq_append_drop,
          List.drop_of_length_le (by rw [hlenA]; omega),
          List.drop_replicate]
        rw [show min (k + 1 + 1) cnt = k + 2 from by omega]
        rw [show (k + 1) * 16 + 16 - (((List.range (k + 1)).map
          (md5Chain md5F password)).flatten).length = 16 from by rw [hlenA]; omega]
        rw [show (cnt - (k + 1)) * 16 - 16 = (cnt - (k + 2)) * 16 from by omega]
        simp [List.range_succ, List.append_assoc]
      · have hkeq : k + 1 = cnt := by omega
        rw [bufCopy_past _ _ _ (by rw [hlenM]; omega)]
        rw [show min (k + 1 + 1) cnt = cnt from by omega, ← hkeq]

theorem _evpBytesToKey_eq_spec (md5F : List Nat → List Nat)
    (hm : ∀ b, (md5F b).length = 16) (password : List Nat) (keyLen : Nat) :
    _evpBytesToKey md5F password keyLen = evpSpecKey md5F password keyLen := by
  unfold _evpBytesToKey evpSpecKey
  dsimp only
  rw [evpLoop_inv md5F hm password ((keyLen - 1) / 16 + 1) (by omega)
    ((keyLen - 1) / 16 + 1) le_rfl]
  rw [show min ((keyLen - 1) / 16 + 1 + 1) ((keyLen - 1) / 16 + 1) =
    (keyLen - 1) / 16 + 1 from by omega]
  simp

theorem cacheKeyOf_inj (pw1 pw2 : List Nat) (kl1 kl2 : Nat)
    (h1 : kl1 = 16 ∨ kl1 = 24 ∨ kl1 = 32) (h2 : kl2 = 16 ∨ kl2 = 24 ∨ kl2 = 32)
    (h : cacheKeyOf pw1 kl1 = cacheKeyOf pw2 kl2) :
    pw1 = pw2 ∧ kl1 = kl2 := by
  have hl1 : ((Nat.toDigits 10 kl1).map Char.toNat).length = 2 := by
    rcases h1 with rfl | rfl | rfl <;> decide
  have hl2 : ((Nat.toDigits 10 kl2).map Char.toNat).length = 2 := by
    rcases h2 with rfl | rfl | rfl <;> decide
  unfold cacheKeyOf at h
  have hlen : pw1.length = pw2.length := by
    have hc := congrArg List.length h
    rw [List.length_append, List.length_append, hl1, hl2] at hc
    omega
  obtain ⟨hpw, hsuf⟩ := List.append_inj h hlen
  refine ⟨hpw, ?_⟩
  rcases h1 with rfl | rfl | rfl <;> rcases h2 with rfl | rfl | rfl <;>
    first
      | rfl
      | exact absurd hsuf (by decide)

theorem lookup_goodCache (md5F : List Nat → List Nat) :
    ∀ (cache : List (List Nat × List Nat)), goodCache md5F cache →
      ∀ (pw : List Nat) (kl : Nat), (kl = 16 ∨ kl = 24 ∨ kl = 32) →
      ∀ v, cache.lookup (cacheKeyOf pw kl) = some v →
        v = _evpBytesToKey md5F pw kl := by
  intro cache
  induction cache with
  | nil =>
      intro _ pw kl _ v hv
      simp [List.lookup] at hv
  | cons e rest ih =>
      intro hg pw kl hkl v hv
      obtain ⟨k, w⟩ := e
      by_cases hbeq : cacheKeyOf pw kl = k
      · rw [List.lookup, show (cacheKeyOf pw kl == k) = true from beq_iff_eq.mpr hbeq] at hv
        obtain ⟨pw2, kl2, hkl2, hk2, hw2⟩ := hg (k, w) (by simp)
        obtain ⟨hpw, hkl12⟩ := cacheKeyOf_inj pw pw2 kl kl2 hkl hkl2
          (by rw [hbeq]; exact hk2)
        have hw2b : w = _evpBytesToKey md5F pw2 kl2 := hw2
        rw [← Option.some.inj hv, hw2b, hpw, hkl12]
      · rw [List.lookup, show (cacheKeyOf pw kl == k) = false from
          beq_eq_false_iff_ne.mpr hbeq] at hv
        exact ih (fun x hx => hg x (List.mem_cons_of_mem _ hx)) pw kl hkl v hv

theorem evpBytesToKey_good (md5F : List Nat → List Nat)
    (cache : List (List Nat × List Nat)) (pw : List Nat) (kl : Nat)
    (hkl : kl = 16 ∨ kl = 24 ∨ kl = 32) (hg : goodCache md5F cache) :
    (evpBytesToKey md5F cache pw kl).1 = _evpBytesToKey md5F pw kl ∧
    goodCache md5F (evpBytesToKey md5F cache pw kl).2 := by
  unfold evpBytesToKey
  dsimp only
  cases hlk : cache.lookup (cacheKeyOf pw kl) with
  | none =>
      refine ⟨rfl, ?_⟩
      intro e he
      rcases List.mem_cons.mp he with rfl | hmem
      · exact ⟨pw, kl, hkl, rfl, rfl⟩
      · exact hg e hmem
  | some v =>
      exact ⟨lookup_goodCache md5F cache hg pw kl hkl v hlk, hg⟩

theorem evpCalls_eq (md5F : List Nat → List Nat) :
    ∀ (calls : List (List Nat × Nat)),
      (∀ c ∈ calls, c.2 = 16 ∨ c.2 = 24 ∨ c.2 = 32) →
      ∀ (acc : List (List Nat)) (cache : List (List Nat × List Nat)),
        goodCache md5F cache →
        (calls.foldl
          (fun (acc2 : List (List Nat) × List (List Nat × List Nat)) c =>
            let r := evpBytesToKey md5F acc2.2 c.1 c.2
            (acc2.1 ++ [r.1], r.2))
          (acc, cache)).1 =
        acc ++ calls.map (fun c => _evpBytesToKey md5F c.1 c.2) := by
  intro calls
  induction calls with
  | nil =>
      intro _ acc cache _
      simp
  | cons c cs ih =>
      intro hcalls acc cache hg
      rw [List.foldl_cons]
      dsimp only
      have hgood := evpBytesToKey_good md5F cache c.1 c.2 (hcalls c (by simp)) hg
      rw [ih (fun x hx => hcalls x (by simp [hx]))
        (acc ++ [(evpBytesToKey md5F cache c.1 c.2).1])
        (evpBytesToKey md5F cache c.1 c.2).2 hgood.2]
      rw [hgood.1, List.map_cons, List.append_assoc, List.singleton_append]

/-- C8: for every password and registry key length, the derived master key
is the keyLen-byte truncation of the MD5 chain `m_0 ‖ m_1 ‖ …`; the
function is deterministic, and across ANY sequence of calls the value
returned (cache hit or fresh computation) is that same spec value. -/
theorem c8_master_key_cached (md5F : List Nat → List Nat)
    (hm : ∀ b, (md5F b).length = 16)
    (calls : List (List Nat × Nat))
    (hcalls : ∀ c ∈ calls, c.2 = 16 ∨ c.2 = 24 ∨ c.2 = 32) :
    evpCalls md5F calls = calls.map (fun c => evpSpecKey md5F c.1 c.2) := by
  unfold evpCalls
  rw [evpCalls_eq md5F calls hcalls [] []
    (by intro e he; exact absurd he (List.not_mem_nil e))]
  rw [List.nil_append]
  exact List.map_congr_left fun c hc => _evpBytesToKey_eq_spec md5F hm c.1 c.2

/-- Witness for C8: three calls (with a repeat, hence a cache hit) against
a concrete 16-byte hash stub. -/
theorem c8_witness :
    (∀ b : List Nat,
      ((fun b2 : List Nat => (List.range 16).map (fun i => (b2.sum + i) % 256)) b).length
        = 16) ∧
    evpCalls (fun b2 : List Nat => (List.range 16).map (fun i => (b2.sum + i) % 256))
        [([97], 16), ([97], 16), ([98], 24)] =
      ([([97], 16), ([97], 16), ([98], 24)] : List (List Nat × Nat)).map
        (fun c => evpSpecKey
          (fun b2 : List Nat => (List.range 16).map (fun i => (b2.sum + i) % 256))
          c.1 c.2) :=
  ⟨by intro b; simp,
   c8_master_key_cached
     (fun b2 : List Nat => (List.range 16).map (fun i => (b2.sum + i) % 256))
     (by intro b; simp) [([97], 16), ([97], 16), ([98], 24)] (by decide)⟩

/-- Witness for C10: a whole one-frame stream flushes cleanly, a stream cut
inside the first length cell flushes with "invalid data". -/
theorem c10_witness :
    (List.replicate 16 7).length = (cipherInfoMap Method.aes128gcm).saltLen ∧
    ([9] : List Nat) ≠ [] ∧
    ([9] : List Nat).length < 18 ∧
    decFlush ((decRun cSum (decInit cSum Method.aes128gcm [112])
        [(encRun cSum (encInit cSum Method.aes128gcm [112]
          (List.replicate 16 7)) [[1, 2, 3]]).out]).st) = none ∧
    decFlush ((decRun cSum (decInit cSum Method.aes128gcm [112])
        [List.replicate 16 7 ++ [9]]).st) = some "invalid data" :=
  ⟨by decide, by decide, by decide,
   (c10_flush_iff_midframe cSum (by intro k n c; simp [cSum, cZero, sumTag])
     Method.aes128gcm [112] (List.replicate 16 7) [1, 2, 3] [] [9]
     (by decide) (by decide) (by decide)).2.1,
   (c10_flush_iff_midframe cSum (by intro k n c; simp [cSum, cZero, sumTag])
     Method.aes128gcm [112] (List.replicate 16 7) [1, 2, 3] [] [9]
     (by decide) (by decide) (by decide)).2.2⟩

end NodeSS
